import Mathlib

/-!
# solidity-vm-go: a shallow embedding of the bytecode VM

The definitions below follow `internal/vm/memory.go`, `internal/vm/opcodes.go`
and `internal/vm/executor.go`.

Conventions of the embedding

* a Go `byte` is a `Fin 256`; a Go `uint64` is a `Nat`, and every arithmetic
  operation that can wrap is written with an explicit `% 2 ^ 64`;
* a Go slice used as a stack (`append` at the end, top = last element) is a
  `List Nat` whose head is the top of the stack;
* a Go `error` is a value of `VMError` / `ExecError` (one constructor per error
  text produced by the source);
* a function that mutates the `*VM` it receives returns the new `VM` together
  with its Go results;
* `Run` separates a normal return from a Go runtime panic and from the loop
  model running out of fuel.
-/

namespace SolVM

/-- A Go `byte`. -/
abbrev Byte := Fin 256

/-- The Go conversion `byte(x)` of an unsigned integer. -/
def toByte (n : Nat) : Byte := ⟨n % 256, Nat.mod_lt _ (by decide)⟩

/-- The modulus of `uint64` arithmetic. -/
def W : Nat := 2 ^ 64

/-- Errors created with `errors.New` / `fmt.Errorf` in `memory.go` and `opcodes.go`. -/
inductive VMError where
  /-- Text "stack overflow". -/
  | stackOverflow
  /-- Text "stack underflow". -/
  | stackUnderflow
  /-- Text "memory out of bounds". -/
  | memoryOutOfBounds
  /-- Text "out of gas". -/
  | outOfGas
  /-- Text "unknown opcode: 0x%x" with the opcode byte. -/
  | unknownOpcode (op : Nat)
  deriving DecidableEq, Repr

/-- Errors placed in `ExecutionResult.Error` by `Execute`. -/
inductive ExecError where
  /-- Text "failed to load bytecode: %w". -/
  | loadFailed (cause : VMError)
  /-- The error of `ConsumeGas`, returned as it is. -/
  | gas (cause : VMError)
  /-- Text "unexpected end of bytecode". -/
  | unexpectedEnd
  /-- Text "execution error at PC=%d: %w". -/
  | atPC (pc : Nat) (cause : VMError)
  deriving DecidableEq, Repr

/-- Outcome of running Go code: a normal return, a runtime panic, or the
fuel of the loop model being used up. -/
inductive Run (α : Type) where
  | done (a : α)
  | panic
  | timeout
  deriving DecidableEq, Repr

/-- A Go `[]byte` of fixed length used as a buffer: its length and its contents. -/
structure ByteBuf where
  size : Nat
  byteAt : Nat → Byte

/-- The struct `VM` of `memory.go`. -/
structure VM where
  Memory : ByteBuf
  Stack : List Nat
  PC : Nat
  Gas : Nat
  Storage : String → Option (List Byte)

/-- The function `NewVM`. -/
def NewVM : VM :=
  { Memory := { size := 2048 * 2048, byteAt := fun _ => 0 }
    Stack := []
    PC := 0
    Gas := 100000
    Storage := fun _ => none }

/-- The method `Push`. -/
def Push (vm : VM) (value : Nat) : VM × Option VMError :=
  if vm.Stack.length ≥ 1024 then (vm, some .stackOverflow)
  else ({ vm with Stack := value :: vm.Stack }, none)

/-- The method `Pop`. -/
def Pop (vm : VM) : VM × Nat × Option VMError :=
  match vm.Stack with
  | [] => (vm, 0, some .stackUnderflow)
  | value :: rest => ({ vm with Stack := rest }, value, none)

/-- The builtin `copy(dst[offset:], data)` on a buffer; `none` when the slice
expression `dst[offset:]` is out of range. -/
def copyInto (buf : ByteBuf) (offset : Nat) (data : List Byte) : Option ByteBuf :=
  if offset ≤ buf.size then
    some { size := buf.size
           byteAt := fun i =>
             if offset ≤ i ∧ i < offset + min data.length (buf.size - offset)
             then data.getD (i - offset) 0 else buf.byteAt i }
  else none

/-- The method `Store`. -/
def Store (vm : VM) (offset : Nat) (data : List Byte) : Run (VM × Option VMError) :=
  if (offset + data.length) % W > vm.Memory.size then
    .done (vm, some .memoryOutOfBounds)
  else
    match copyInto vm.Memory offset data with
    | none => .panic
    | some m => .done ({ vm with Memory := m }, none)

/-- The method `Load`. -/
def Load (vm : VM) (offset length : Nat) : Run (List Byte × Option VMError) :=
  if (offset + length) % W > vm.Memory.size then
    .done ([], some .memoryOutOfBounds)
  else if offset ≤ (offset + length) % W then
    .done ((List.range length).map (fun i =>
      if i < (offset + length) % W - offset then vm.Memory.byteAt (offset + i) else 0), none)
  else .panic

/-- The method `SetStorage`. -/
def SetStorage (vm : VM) (key : String) (value : List Byte) : VM :=
  { vm with Storage := fun k => if k = key then some value else vm.Storage k }

/-- The method `GetStorage`. -/
def GetStorage (vm : VM) (key : String) : List Byte × Bool :=
  match vm.Storage key with
  | some value => (value, true)
  | none => ([], false)

/-- The method `ConsumeGas`. -/
def ConsumeGas (vm : VM) (amount : Nat) : VM × Option VMError :=
  if vm.Gas < amount then (vm, some .outOfGas)
  else ({ vm with Gas := vm.Gas - amount }, none)

/-- The type `OpCode`. -/
abbrev OpCode := Byte

def PUSH1 : OpCode := 0x60
def PUSH32 : OpCode := 0x7f
def POP : OpCode := 0x50
def ADD : OpCode := 0x01
def SUB : OpCode := 0x03
def MUL : OpCode := 0x02
def DIV : OpCode := 0x04
def SSTORE : OpCode := 0x55
def SLOAD : OpCode := 0x54
def JUMP : OpCode := 0x56
def JUMPI : OpCode := 0x57
def STOP : OpCode := 0x00

/-- One lowercase hexadecimal digit. -/
def hexDigit (d : Nat) : Char :=
  if d < 10 then Char.ofNat (48 + d) else Char.ofNat (87 + d)

/-- The digits of `n` in base 16, most significant first, without leading
zeros; `fuel` bounds the number of digits. -/
def hexDigits : Nat → Nat → List Char
  | 0, _ => []
  | fuel + 1, n =>
    if n < 16 then [hexDigit n] else hexDigits fuel (n / 16) ++ [hexDigit (n % 16)]

/-- The call `fmt.Sprintf("%x", key)` on a `uint64` (at most 16 digits). -/
def fmtHex (key : Nat) : String := String.mk (hexDigits 16 key)

/-- The accumulation `value = (value << 8) | uint64(b)` on `uint64`. -/
def shiftOr (value : Nat) (b : Byte) : Nat := ((value <<< 8) % W) ||| b.val

/-- The loop of the `PUSH` case: the operand read big-endian into a `uint64`. -/
def decodeOperand (operand : List Byte) : Nat := operand.foldl shiftOr 0

/-- The loop of `SSTORE`: `valueBytes[i] = byte(value >> (8 * (7 - i)))`. -/
def encodeValue (value : Nat) : List Byte :=
  (List.range 8).foldl
    (fun buf i => buf.set i (toByte (value >>> (8 * (7 - i))))) (List.replicate 8 0)

/-- The loop of `SLOAD`: at most 8 bytes read big-endian. -/
def decodeValue (value : List Byte) : Nat := (value.take 8).foldl shiftOr 0

/-- The function `ExecuteOpcode`. -/
def ExecuteOpcode (vm : VM) (opcode : OpCode) (operand : List Byte) : VM × Option VMError :=
  if opcode = PUSH1 ∨ opcode = PUSH32 then
    Push vm (decodeOperand operand)
  else if opcode = POP then
    match Pop vm with
    | (vm1, _, err) => (vm1, err)
  else if opcode = ADD then
    match Pop vm with
    | (vm1, _, some err) => (vm1, some err)
    | (vm1, b, none) =>
      match Pop vm1 with
      | (vm2, _, some err) => (vm2, some err)
      | (vm2, a, none) => Push vm2 ((a + b) % W)
  else if opcode = SUB then
    match Pop vm with
    | (vm1, _, some err) => (vm1, some err)
    | (vm1, b, none) =>
      match Pop vm1 with
      | (vm2, _, some err) => (vm2, some err)
      | (vm2, a, none) => Push vm2 ((a + W - b) % W)
  else if opcode = MUL then
    match Pop vm with
    | (vm1, _, some err) => (vm1, some err)
    | (vm1, b, none) =>
      match Pop vm1 with
      | (vm2, _, some err) => (vm2, some err)
      | (vm2, a, none) => Push vm2 ((a * b) % W)
  else if opcode = DIV then
    match Pop vm with
    | (vm1, _, some err) => (vm1, some err)
    | (vm1, b, none) =>
      if b = 0 then Push vm1 0
      else
        match Pop vm1 with
        | (vm2, _, some err) => (vm2, some err)
        | (vm2, a, none) => Push vm2 (a / b)
  else if opcode = SSTORE then
    match Pop vm with
    | (vm1, _, some err) => (vm1, some err)
    | (vm1, value, none) =>
      match Pop vm1 with
      | (vm2, _, some err) => (vm2, some err)
      | (vm2, key, none) => (SetStorage vm2 (fmtHex key) (encodeValue value), none)
  else if opcode = SLOAD then
    match Pop vm with
    | (vm1, _, some err) => (vm1, some err)
    | (vm1, key, none) =>
      match GetStorage vm1 (fmtHex key) with
      | (_, false) => Push vm1 0
      | (value, true) => Push vm1 (decodeValue value)
  else if opcode = JUMP then
    match Pop vm with
    | (vm1, _, some err) => (vm1, some err)
    | (vm1, dest, none) => ({ vm1 with PC := dest }, none)
  else if opcode = JUMPI then
    match Pop vm with
    | (vm1, _, some err) => (vm1, some err)
    | (vm1, cond, none) =>
      match Pop vm1 with
      | (vm2, _, some err) => (vm2, some err)
      | (vm2, dest, none) =>
        if cond ≠ 0 then ({ vm2 with PC := dest }, none) else (vm2, none)
  else if opcode = STOP then
    (vm, none)
  else
    (vm, some (.unknownOpcode opcode.val))

/-- The struct `Contract`; the ABI is an uninterpreted value. -/
structure Contract (α : Type) where
  Bytecode : List Byte
  ABI : α

/-- The struct `ExecutionResult`. -/
structure ExecutionResult where
  Success : Bool
  ReturnData : List Byte
  GasUsed : Nat
  Error : Option ExecError
  deriving DecidableEq, Repr

/-- The slice expression `s[lo:hi]`; `none` when it is out of range. -/
def sliceOf (s : List Byte) (lo hi : Nat) : Option (List Byte) :=
  if lo ≤ hi ∧ hi ≤ s.length then some ((s.drop lo).take (hi - lo)) else none

/-- State of `Execute` when its loop is left: the machine, the error of an
early `return` (if any), and the number of opcodes fetched so far (a ghost
counter, incremented at the statement `opcode := OpCode(contract.Bytecode[vm.PC])`). -/
structure LoopEnd where
  vm : VM
  err : Option ExecError
  fetched : Nat

/-- The `for` loop of `Execute`; `fuel` bounds the number of iterations of the
model and `n` is the ghost counter of fetched opcodes. -/
def execLoop : Nat → VM → List Byte → Nat → Run LoopEnd
  | 0, _, _, _ => .timeout
  | fuel + 1, vm, code, n =>
    if vm.PC < code.length then
      match ConsumeGas vm 1 with
      | (vm1, some err) => .done ⟨vm1, some (.gas err), n⟩
      | (vm1, none) =>
        match code[vm1.PC]? with
        | none => .panic
        | some opcode =>
          let vm2 : VM := { vm1 with PC := (vm1.PC + 1) % W }
          if PUSH1.val ≤ opcode.val ∧ opcode.val ≤ PUSH32.val then
            let size := (opcode.val + 256 - PUSH1.val + 1) % 256
            if (vm2.PC + size) % W > code.length then
              .done ⟨vm2, some .unexpectedEnd, n + 1⟩
            else
              match sliceOf code vm2.PC ((vm2.PC + size) % W) with
              | none => .panic
              | some operand =>
                let vm3 : VM := { vm2 with PC := (vm2.PC + size) % W }
                match ExecuteOpcode vm3 opcode operand with
                | (vm4, some err) =>
                  .done ⟨vm4, some (.atPC ((vm4.PC + W - 1) % W) err), n + 1⟩
                | (vm4, none) =>
                  if opcode = STOP then .done ⟨vm4, none, n + 1⟩
                  else execLoop fuel vm4 code (n + 1)
          else
            match ExecuteOpcode vm2 opcode [] with
            | (vm4, some err) =>
              .done ⟨vm4, some (.atPC ((vm4.PC + W - 1) % W) err), n + 1⟩
            | (vm4, none) =>
              if opcode = STOP then .done ⟨vm4, none, n + 1⟩
              else execLoop fuel vm4 code (n + 1)
    else .done ⟨vm, none, n⟩

/-- The tail of `Execute`: the top of the stack written big-endian into 8
bytes (`returnData[7-i] = byte(value >> (8 * i))`), or no data. -/
def returnDataOf (stack : List Nat) : List Byte :=
  match stack with
  | [] => []
  | value :: _ =>
    (List.range 8).foldl
      (fun buf i => buf.set (7 - i) (toByte (value >>> (8 * i)))) (List.replicate 8 0)

/-- The result `Execute` builds once its loop is left with initial gas `initialGas`. -/
def resultOf (initialGas : Nat) (e : LoopEnd) : ExecutionResult :=
  match e.err with
  | some err =>
    { Success := false, ReturnData := [], GasUsed := (initialGas + W - e.vm.Gas) % W,
      Error := some err }
  | none =>
    { Success := true, ReturnData := returnDataOf e.vm.Stack,
      GasUsed := (initialGas + W - e.vm.Gas) % W, Error := none }

/-- The function `Execute`, returning also the ghost counter of fetched
opcodes. The loop gets one unit of fuel more than the gas it starts with. -/
def ExecuteTrace {α : Type} (contract : Contract α) (_input : List Byte) :
    Run (ExecutionResult × Nat) :=
  match Store NewVM 0 contract.Bytecode with
  | .panic => .panic
  | .timeout => .timeout
  | .done (_, some err) =>
    .done ({ Success := false, ReturnData := [], GasUsed := 0,
             Error := some (.loadFailed err) }, 0)
  | .done (vm, none) =>
    match execLoop (vm.Gas + 1) vm contract.Bytecode 0 with
    | .panic => .panic
    | .timeout => .timeout
    | .done e => .done (resultOf vm.Gas e, e.fetched)

/-- The function `Execute`. -/
def Execute {α : Type} (contract : Contract α) (input : List Byte) : Run ExecutionResult :=
  match ExecuteTrace contract input with
  | .panic => .panic
  | .timeout => .timeout
  | .done (r, _) => .done r

/-- A contract with the given bytecode and no ABI. -/
def mkContract (code : List Byte) : Contract Unit := { Bytecode := code, ABI := () }

/-- A Go `interface{}` value, as far as this program inspects it: a string, an
unsigned integer, or a value of another dynamic type. -/
inductive AnyValue where
  | str (s : String)
  | uint (n : Nat)
  | other
  deriving DecidableEq, Repr

/-- The method `Parser.Parse` of `parser.go`: the source code itself is
returned as the syntax tree, with no error. -/
def Parser.Parse (sourceCode : String) : AnyValue × Option String :=
  (.str sourceCode, none)

/-- The struct `CompileResult`; the ABI of its contract is `nil`. -/
structure CompileResult where
  Contract : Contract Unit
  Error : Option String

/-- The function `Compile` of `compiler.go`: a fixed bytecode, whatever the source. -/
def Compile (_source : String) : CompileResult :=
  { Contract :=
      { Bytecode :=
          [PUSH1, 0x00, PUSH1, 0x00, SSTORE,
           PUSH1, 0x01, PUSH1, 0x01, SSTORE,
           PUSH1, 0x02, PUSH1, 0x02, SSTORE,
           PUSH1, 0x03, PUSH1, 0x03, SSTORE,
           STOP,
           PUSH1, 0x00, PUSH1, 0x01, ADD, SSTORE,
           PUSH1, 0x01, PUSH1, 0x02, SSTORE,
           STOP,
           PUSH1, 0x00, SLOAD, PUSH1, 0x01, SLOAD, ADD, PUSH1, 0x02, SLOAD, ADD,
           STOP,
           PUSH1, 0xFF, PUSH1, 0xFF, PUSH1, 0xFF, PUSH1, 0xFF, ADD, ADD, ADD,
           STOP]
        ABI := () }
    Error := none }

/-- The method `Compiler.Compile` of `compiler.go`. -/
def Compiler.Compile (input : AnyValue) : List Byte × Option String :=
  match input with
  | .str source =>
    match (SolVM.Compile source).Error with
    | some err => ([], some err)
    | none => ((SolVM.Compile source).Contract.Bytecode, none)
  | _ => ([PUSH1, 0x01, PUSH1, 0x02, ADD, STOP], none)

/-- The method `(*VM).Execute` of `memory.go`, whose body is `panic("unimplemented")`. -/
def VM.Execute (_vm : VM) (_bytecode : List Byte) : Run (AnyValue × Option String) :=
  .panic

/-- The source text used by `TestVMExecution` in `tests/vm_test.go`. -/
def testSolidityCode : String :=
  "\n\t\tpragma solidity ^0.8.0;\n\n\t\tcontract Test \x7b\n\t\t\tfunction add(uint a, uint b) public pure returns (uint) \x7b\n\t\t\t\treturn a + b;\n\t\t\t\x7d\n\t\t\x7d\n\t"

/-- The test `TestVMExecution` of `tests/vm_test.go` on a source text: parse,
compile, execute on a fresh `NewVM`, compare the result with `uint(3)`.
`done true` is a passing test, `done false` a failed check. -/
def TestVMExecution (solidityCode : String) : Run Bool :=
  match Parser.Parse solidityCode with
  | (_, some _) => .done false
  | (ast, none) =>
    match Compiler.Compile ast with
    | (_, some _) => .done false
    | (bytecode, none) =>
      match VM.Execute NewVM bytecode with
      | .panic => .panic
      | .timeout => .timeout
      | .done (_, some _) => .done false
      | .done (result, none) => .done (decide (result = .uint 3))

/-- The panics raised by the methods of `Memory`, by their texts, and the
failures of the Go runtime (index out of range, length out of range or out of
memory in `make`). -/
inductive PanicKind where
  /-- Text "memory access out of bounds". -/
  | accessOutOfBounds
  /-- Text "not enough memory to allocate". -/
  | notEnoughMemory
  /-- Text "memory deallocation out of bounds". -/
  | deallocOutOfBounds
  /-- A panic or fatal error of the Go runtime. -/
  | runtime
  deriving DecidableEq, Repr

/-- Result of a method that returns a value or panics. -/
inductive Outcome (α : Type) where
  | ok (a : α)
  | panic (p : PanicKind)
  deriving DecidableEq, Repr

/-- The struct `Memory` of `memory.go`; a Go `int` is an `Int`. -/
structure Memory where
  data : List Byte
  size : Int
  deriving DecidableEq, Repr

/-- Arithmetic on the 64-bit Go `int`: the result wrapped into `[-2^63, 2^63)`. -/
def wrapInt (x : Int) : Int := (x + 2 ^ 63) % 2 ^ 64 - 2 ^ 63

/-- The function `NewMemory`. Its `make([]byte, size)` fails on a negative
length and on a length the runtime does not grant (`makeslice: len out of
range` above the allocation limit of the runtime, out of memory below it);
`maxLen` is the largest length the runtime grants, which depends on the
platform and not on the program. -/
def NewMemory (maxLen : Nat) (size : Int) : Outcome Memory :=
  if size < 0 ∨ size > maxLen then .panic .runtime
  else .ok { data := List.replicate size.toNat 0, size := size }

/-- The method `Memory.Get`. -/
def Memory.Get (m : Memory) (address : Int) : Outcome Byte :=
  if address < 0 ∨ address ≥ m.size then .panic .accessOutOfBounds
  else
    match m.data[address.toNat]? with
    | some b => .ok b
    | none => .panic .runtime

/-- The method `Memory.Set`. -/
def Memory.Set (m : Memory) (address : Int) (value : Byte) : Outcome Memory :=
  if address < 0 ∨ address ≥ m.size then .panic .accessOutOfBounds
  else if address.toNat < m.data.length then
    .ok { m with data := m.data.set address.toNat value }
  else .panic .runtime

/-- The method `Memory.Allocate`: the start address and the memory after the call. -/
def Memory.Allocate (m : Memory) (size : Int) : Outcome (Int × Memory) :=
  if wrapInt (m.size - size) < 0 then .panic .notEnoughMemory
  else .ok (wrapInt (m.size - size), { m with size := wrapInt (m.size - size) })

/-- The method `Memory.Deallocate`. -/
def Memory.Deallocate (m : Memory) (address size : Int) : Outcome Memory :=
  if address < 0 ∨ wrapInt (address + size) > m.size then .panic .deallocOutOfBounds
  else .ok m

/-! ## Definitions used to state the properties -/

/-- The method `Push` called with each value of a list, first to last; the
machine after the calls and the error of each call. -/
def pushAll : VM → List Nat → VM × List (Option VMError)
  | vm, [] => (vm, [])
  | vm, v :: vs => ((pushAll (Push vm v).1 vs).1, (Push vm v).2 :: (pushAll (Push vm v).1 vs).2)

/-- The method `Pop` called `n` times; the machine after the calls and the
value and error of each call, in the order of the calls. -/
def popN : VM → Nat → VM × List (Nat × Option VMError)
  | vm, 0 => (vm, [])
  | vm, n + 1 =>
    ((popN (Pop vm).1 n).1, ((Pop vm).2.1, (Pop vm).2.2) :: (popN (Pop vm).1 n).2)

/-- Big-endian value of a byte string. -/
def beValue (bs : List Byte) : Nat := bs.foldl (fun acc b => acc * 256 + b.val) 0

/-- Value of one hexadecimal digit character. -/
def digitVal (c : Char) : Nat := if c.toNat < 58 then c.toNat - 48 else c.toNat - 87

/-- Value of a string of hexadecimal digits. -/
def parseHex (cs : List Char) : Nat := cs.foldl (fun acc c => acc * 16 + digitVal c) 0

/-- The opcodes `ExecuteOpcode` has a case for. -/
def knownOpcodes : List OpCode :=
  [PUSH1, PUSH32, POP, ADD, SUB, MUL, DIV, SSTORE, SLOAD, JUMP, JUMPI, STOP]

/-- Largest bytecode `Store` accepts: the size of the memory of `NewVM`. -/
def maxCode : Nat := 2048 * 2048

/-- What one call of `ExecuteOpcode` may change: gas and memory never, the
program counter only when no error is returned, the stack within its bound
and word width, storage only through `SSTORE` with two operands. -/
structure Frame (vm : VM) (op : OpCode) (r : VM × Option VMError) : Prop where
  gas : r.1.Gas = vm.Gas
  memory : r.1.Memory = vm.Memory
  pcErr : r.2 ≠ none → r.1.PC = vm.PC
  stackLen : vm.Stack.length ≤ 1024 → r.1.Stack.length ≤ 1024
  stackVal : (∀ x ∈ vm.Stack, x < W) → ∀ x ∈ r.1.Stack, x < W
  storage : r.1.Storage =
    if op = SSTORE then
      match vm.Stack with
      | value :: key :: _ =>
        fun k => if k = fmtHex key then some (encodeValue value) else vm.Storage k
      | _ => vm.Storage
    else vm.Storage

/-- What the loop of `Execute` guarantees about the state it is left with,
started in `vm` with `n` opcodes fetched before: every fetched opcode has been
paid one unit of gas, and the stack keeps its bound and its word width. -/
def LoopPost (vm : VM) (n : Nat) (e : LoopEnd) : Prop :=
  e.vm.Gas + e.fetched = vm.Gas + n ∧
    (vm.Stack.length ≤ 1024 → e.vm.Stack.length ≤ 1024) ∧
    ((∀ x ∈ vm.Stack, x < W) → ∀ x ∈ e.vm.Stack, x < W)

/-- Width of the immediate operand of an opcode (spec 4.5): `PUSH1..PUSH32`
carry `opcode - PUSH1 + 1` bytes, every other opcode none. -/
def immWidth (op : OpCode) : Nat :=
  if 0x60 ≤ op.val ∧ op.val ≤ 0x7f then op.val - 0x60 + 1 else 0

/-- One step of the execution loop that does not fail, in the words of spec
4.6: the counter is inside the bytecode, one unit of gas is charged, the
opcode is fetched and the counter advanced by one, a PUSH variant reads its
immediate inside the bytecode and advances past it, and the dispatch returns
no failure. -/
def StepOK (code : List Byte) (vm : VM) (op : OpCode) (vm1 : VM) : Prop :=
  vm.PC < code.length ∧ 1 ≤ vm.Gas ∧ code[vm.PC]? = some op ∧
    vm.PC + 1 + immWidth op ≤ code.length ∧
    ExecuteOpcode { vm with Gas := vm.Gas - 1, PC := vm.PC + 1 + immWidth op } op
      ((code.drop (vm.PC + 1)).take (immWidth op)) = (vm1, none)

/-- Execution that ends in the state Stopped, in the words of spec 4.6: the
counter reaches or exceeds the bytecode length, or a STOP is executed, after
any number of steps that do not fail. -/
inductive Halts (code : List Byte) : VM → VM → Prop where
  | exhausted (vm : VM) (h : code.length ≤ vm.PC) : Halts code vm vm
  | stop (vm vm1 : VM) (h : StepOK code vm STOP vm1) : Halts code vm vm1
  | step (vm vm1 vm2 : VM) (op : OpCode) (h : StepOK code vm op vm1) (hne : op ≠ STOP)
      (hrest : Halts code vm1 vm2) : Halts code vm vm2

/-- Steps of the execution loop that do not fail and do not execute STOP,
zero or more of them: the states the loop passes through. -/
inductive Reaches (code : List Byte) : VM → VM → Prop where
  | refl (vm : VM) : Reaches code vm vm
  | step (vm vm1 vm2 : VM) (op : OpCode) (h : StepOK code vm op vm1) (hne : op ≠ STOP)
      (hrest : Reaches code vm1 vm2) : Reaches code vm vm2

/-- The state in which the loop of `Execute` starts: `NewVM` with the
bytecode stored at offset 0 of its memory. -/
def startVM (code : List Byte) : VM :=
  { NewVM with Memory := (copyInto NewVM.Memory 0 code).getD NewVM.Memory }

/-- The value `SLOAD` pushes for the integer key `k`, read off the storage map. -/
def sloadOf (st : String → Option (List Byte)) (k : Nat) : Nat :=
  match st (fmtHex k) with
  | some bs => decodeValue bs
  | none => 0

/-- A sequence of `ExecuteOpcode` calls on one machine; a call that returns
an error leaves the machine as that call left it, and the next call goes on. -/
def runOps (vm : VM) (ops : List (OpCode × List Byte)) : VM :=
  ops.foldl (fun m o => (ExecuteOpcode m o.1 o.2).1) vm

/-- The writes `(key, value)` performed by the `SSTORE` calls of a sequence of
`ExecuteOpcode` calls, oldest first: an `SSTORE` writes when the stack holds
the value on top and the key beneath it. -/
def writesOf : VM → List (OpCode × List Byte) → List (Nat × Nat)
  | _, [] => []
  | vm, o :: ops =>
    (if o.1 = SSTORE then
      match vm.Stack with
      | value :: key :: _ => [(key, value)]
      | _ => []
     else []) ++ writesOf (ExecuteOpcode vm o.1 o.2).1 ops

/-- The value of the most recent write to key `k` in a list of writes (oldest
first), and 0 when `k` was never written. -/
def lastWrite (ws : List (Nat × Nat)) (k : Nat) : Nat :=
  match ws.reverse.find? (fun w => decide (w.1 = k)) with
  | some w => w.2
  | none => 0

/-- The invariant of a machine driven by `ExecuteOpcode` calls: the stack keeps
its bound and word width, and storage holds the last write of every key. -/
def StoreInv (vm : VM) (ws : List (Nat × Nat)) : Prop :=
  vm.Stack.length ≤ 1024 ∧ (∀ x ∈ vm.Stack, x < W) ∧
    ∀ k, k < W → sloadOf vm.Storage k = lastWrite ws k

/-- The program `PUSH1 a, PUSH1 b, SSTORE, PUSH1 c, SLOAD, STOP`. -/
def storeLoadProgram (a b c : Byte) : List Byte :=
  [0x60, a, 0x60, b, 0x55, 0x60, c, 0x54, 0x00]

/-- The endless loop `PUSH1 0x00, JUMP`. -/
def endlessLoop : List Byte := [0x60, 0x00, 0x56]

/-- The bytecode of `n` consecutive `PUSH1 0x01` instructions. -/
def pushProgram : Nat → List Byte
  | 0 => []
  | n + 1 => 0x60 :: 0x01 :: pushProgram n

/-- The state of the loop of `Execute` on `pushProgram n` after `k` pushes. -/
def pushState (n k : Nat) : VM :=
  { startVM (pushProgram n) with Stack := List.replicate k 1, PC := 2 * k, Gas := 100000 - k }

/-- A lowercase hexadecimal digit character. -/
def isLowerHex (c : Char) : Prop :=
  c ∈ ['0', '1', '2', '3', '4', '5', '6', '7', '8', '9', 'a', 'b', 'c', 'd', 'e', 'f']

/-- Canonical form of storage: every entry has as key the rendering of a
64-bit integer and as value the encoding of a 64-bit value. -/
def StorageCanon (st : String → Option (List Byte)) : Prop :=
  ∀ s bs, st s = some bs →
    ∃ key value, key < W ∧ value < W ∧ s = fmtHex key ∧ bs = encodeValue value

/-- Storage holds exactly the writes performed, oldest first in `ws`: keys and
values written are 64-bit, every entry has as key the rendering of a key
written and as value the encoding of the value most recently written under
that key, and every key written has its entry. -/
def StorageOfWrites (st : String → Option (List Byte)) (ws : List (Nat × Nat)) : Prop :=
  (∀ w ∈ ws, w.1 < W ∧ w.2 < W) ∧
    (∀ s bs, st s = some bs →
      ∃ key, (∃ v, (key, v) ∈ ws) ∧ s = fmtHex key ∧ bs = encodeValue (lastWrite ws key)) ∧
    (∀ w ∈ ws, st (fmtHex w.1) = some (encodeValue (lastWrite ws w.1)))

/-- A memory whose accessible size is inside its data, the data having a
length a Go slice can have: the memories `NewMemory` creates, and what
`Allocate` of a positive size within the accessible size and `Set` make of them. -/
def Memory.WF (m : Memory) : Prop :=
  0 ≤ m.size ∧ m.size ≤ m.data.length ∧ m.data.length < 2 ^ 63

/-! ## Byte and word arithmetic -/

theorem shiftOr_eq (v : Nat) (b : Byte) : shiftOr v b = (v * 256) % W + b.val := by
  unfold shiftOr W
  have hb : b.val < 2 ^ 8 := b.isLt
  have h1 : (v <<< 8) % 2 ^ 64 = 2 ^ 8 * (v % 2 ^ 56) := by
    rw [Nat.shiftLeft_eq]; omega
  have h2 : (v * 256) % 2 ^ 64 = 2 ^ 8 * (v % 2 ^ 56) := by omega
  rw [h1, h2]
  exact (Nat.mul_add_lt_is_or hb _).symm

theorem shiftOr_lt (v : Nat) (b : Byte) : shiftOr v b < W := by
  rw [shiftOr_eq]; unfold W
  have hb : b.val < 256 := b.isLt
  omega

theorem foldl_shiftOr_lt (bs : List Byte) : ∀ v, v < W → bs.foldl shiftOr v < W := by
  induction bs with
  | nil => intro v hv; simpa using hv
  | cons b bs ih => intro v _; exact ih _ (shiftOr_lt v b)

theorem decodeOperand_lt (operand : List Byte) : decodeOperand operand < W :=
  foldl_shiftOr_lt operand 0 (by unfold W; norm_num)

theorem decodeValue_lt (value : List Byte) : decodeValue value < W :=
  foldl_shiftOr_lt _ 0 (by unfold W; norm_num)

theorem returnDataOf_cons (v : Nat) (s : List Nat) :
    returnDataOf (v :: s) =
      [toByte (v >>> 56), toByte (v >>> 48), toByte (v >>> 40), toByte (v >>> 32),
       toByte (v >>> 24), toByte (v >>> 16), toByte (v >>> 8), toByte v] := by
  simp [returnDataOf, List.range, List.range.loop, List.replicate]

theorem encodeValue_eq (v : Nat) :
    encodeValue v =
      [toByte (v >>> 56), toByte (v >>> 48), toByte (v >>> 40), toByte (v >>> 32),
       toByte (v >>> 24), toByte (v >>> 16), toByte (v >>> 8), toByte v] := by
  simp [encodeValue, List.range, List.range.loop, List.replicate]

theorem beValue_bytes (v : Nat) (hv : v < W) :
    beValue [toByte (v >>> 56), toByte (v >>> 48), toByte (v >>> 40), toByte (v >>> 32),
       toByte (v >>> 24), toByte (v >>> 16), toByte (v >>> 8), toByte v] = v := by
  unfold W at hv
  simp only [beValue, List.foldl, toByte, Nat.shiftRight_eq_div_pow]
  omega

theorem decodeValue_encodeValue (v : Nat) (hv : v < W) : decodeValue (encodeValue v) = v := by
  rw [encodeValue_eq]
  unfold W at hv
  simp only [decodeValue, List.take, List.foldl, shiftOr_eq, toByte, Nat.shiftRight_eq_div_pow, W]
  omega

/-! ## The key rendering is injective on `uint64` -/

theorem digitVal_hexDigit (d : Nat) (hd : d < 16) : digitVal (hexDigit d) = d := by
  interval_cases d <;> rfl

theorem parseHex_hexDigits (fuel : Nat) :
    ∀ n, n < 16 ^ fuel → parseHex (hexDigits fuel n) = n := by
  induction fuel with
  | zero => intro n hn; simp at hn; subst hn; rfl
  | succ k ih =>
    intro n hn
    unfold hexDigits
    split
    · next h => simp [parseHex, digitVal_hexDigit n h]
    · next h =>
      have h1 : n / 16 < 16 ^ k := by
        rw [pow_succ] at hn; omega
      have h2 := ih (n / 16) h1
      have h3 := digitVal_hexDigit (n % 16) (by omega)
      unfold parseHex at h2 ⊢
      rw [List.foldl_append, h2]
      simp only [List.foldl, h3]
      omega

theorem fmtHex_inj (a b : Nat) (ha : a < W) (hb : b < W) (h : fmtHex a = fmtHex b) : a = b := by
  unfold fmtHex at h
  have h1 : hexDigits 16 a = hexDigits 16 b := congrArg String.data h
  have ha1 : a < 16 ^ 16 := by unfold W at ha; omega
  have hb1 : b < 16 ^ 16 := by unfold W at hb; omega
  rw [← parseHex_hexDigits 16 a ha1, ← parseHex_hexDigits 16 b hb1, h1]

/-! ## Single opcodes -/

theorem Push_ok (vm : VM) (v : Nat) (h : vm.Stack.length < 1024) :
    Push vm v = ({ vm with Stack := v :: vm.Stack }, none) := by
  unfold Push
  rw [if_neg (by omega)]

theorem ExecuteOpcode_ADD (vm : VM) (a b : Nat) (rest : List Nat) (operand : List Byte) :
    ExecuteOpcode { vm with Stack := b :: a :: rest } ADD operand =
      Push { vm with Stack := rest } ((a + b) % W) := rfl

theorem ExecuteOpcode_SUB (vm : VM) (a b : Nat) (rest : List Nat) (operand : List Byte) :
    ExecuteOpcode { vm with Stack := b :: a :: rest } SUB operand =
      Push { vm with Stack := rest } ((a + W - b) % W) := rfl

theorem ExecuteOpcode_MUL (vm : VM) (a b : Nat) (rest : List Nat) (operand : List Byte) :
    ExecuteOpcode { vm with Stack := b :: a :: rest } MUL operand =
      Push { vm with Stack := rest } ((a * b) % W) := rfl

theorem ExecuteOpcode_DIV (vm : VM) (a b : Nat) (rest : List Nat) (operand : List Byte) :
    ExecuteOpcode { vm with Stack := b :: a :: rest } DIV operand =
      if b = 0 then Push { vm with Stack := a :: rest } 0
      else Push { vm with Stack := rest } (a / b) := rfl

theorem ExecuteOpcode_DIV_zero (vm : VM) (rest : List Nat) (operand : List Byte) :
    ExecuteOpcode { vm with Stack := 0 :: rest } DIV operand =
      Push { vm with Stack := rest } 0 := rfl

theorem ExecuteOpcode_JUMPI (vm : VM) (c d : Nat) (rest : List Nat) (operand : List Byte) :
    ExecuteOpcode { vm with Stack := c :: d :: rest } JUMPI operand =
      (if c ≠ 0 then ({ vm with Stack := rest, PC := d }, none)
       else ({ vm with Stack := rest }, none)) := rfl

theorem ExecuteOpcode_JUMP (vm : VM) (d : Nat) (rest : List Nat) (operand : List Byte) :
    ExecuteOpcode { vm with Stack := d :: rest } JUMP operand =
      ({ vm with Stack := rest, PC := d }, none) := rfl

theorem ExecuteOpcode_SSTORE (vm : VM) (value key : Nat) (rest : List Nat)
    (operand : List Byte) :
    ExecuteOpcode { vm with Stack := value :: key :: rest } SSTORE operand =
      (SetStorage { vm with Stack := rest } (fmtHex key) (encodeValue value), none) := rfl

theorem ExecuteOpcode_PUSH1 (vm : VM) (operand : List Byte) :
    ExecuteOpcode vm PUSH1 operand = Push vm (decodeOperand operand) := rfl

theorem ExecuteOpcode_STOP (vm : VM) (operand : List Byte) :
    ExecuteOpcode vm STOP operand = (vm, none) := rfl

theorem ExecuteOpcode_unknown (vm : VM) (op : OpCode) (operand : List Byte)
    (h : op ∉ knownOpcodes) :
    ExecuteOpcode vm op operand = (vm, some (.unknownOpcode op.val)) := by
  simp only [knownOpcodes, List.mem_cons, List.mem_singleton, not_or, List.mem_nil_iff,
    not_false_eq_true, and_true] at h
  obtain ⟨h1, h2, h3, h4, h5, h6, h7, h8, h9, h10, h11, h12⟩ := h
  unfold ExecuteOpcode
  rw [if_neg (by simp [h1, h2]), if_neg h3, if_neg h4, if_neg h5, if_neg h6, if_neg h7,
    if_neg h8, if_neg h9, if_neg h10, if_neg h11, if_neg h12]

/-! ## The frame of one opcode -/

theorem frame_Push (vm0 vm : VM) (op : OpCode) (v : Nat) (hop : op ≠ SSTORE)
    (hv : (∀ x ∈ vm0.Stack, x < W) → v < W)
    (hg : vm.Gas = vm0.Gas) (hm : vm.Memory = vm0.Memory) (hp : vm.PC = vm0.PC)
    (hs : vm.Storage = vm0.Storage)
    (hl : ∀ x ∈ vm.Stack, x ∈ vm0.Stack) (hlen : vm.Stack.length ≤ vm0.Stack.length) :
    Frame vm0 op (Push vm v) := by
  unfold Push
  split
  · exact ⟨hg, hm, fun _ => hp, fun h => by simp only; omega,
      fun h x hx => h x (hl x hx), by simp [hop, hs]⟩
  · refine ⟨hg, hm, fun _ => hp, fun h => by simp only [List.length_cons]; omega, ?_,
      by simp [hop, hs]⟩
    intro h x hx
    simp only [List.mem_cons] at hx
    rcases hx with rfl | hx
    · exact hv h
    · exact h x (hl x hx)

theorem frame_ret (vm0 vm : VM) (op : OpCode) (e : Option VMError) (hop : op ≠ SSTORE)
    (hg : vm.Gas = vm0.Gas) (hm : vm.Memory = vm0.Memory) (hp : e ≠ none → vm.PC = vm0.PC)
    (hs : vm.Storage = vm0.Storage)
    (hl : ∀ x ∈ vm.Stack, x ∈ vm0.Stack) (hlen : vm.Stack.length ≤ vm0.Stack.length) :
    Frame vm0 op (vm, e) :=
  ⟨hg, hm, hp, fun h => by simp only; omega, fun h x hx => h x (hl x hx), by simp [hop, hs]⟩

theorem ExecuteOpcode_frame (vm : VM) (op : OpCode) (operand : List Byte) :
    Frame vm op (ExecuteOpcode vm op operand) := by
  by_cases hk : op ∈ knownOpcodes
  · obtain ⟨mem, stack, pc, gas, st⟩ := vm
    simp only [knownOpcodes, List.mem_cons, List.mem_singleton, List.mem_nil_iff, or_false] at hk
    rcases hk with rfl | rfl | rfl | rfl | rfl | rfl | rfl | rfl | rfl | rfl | rfl | rfl
    · exact frame_Push _ _ _ _ (by decide) (fun _ => decodeOperand_lt _) rfl rfl rfl rfl
        (fun _ h => h) (le_refl _)
    · exact frame_Push _ _ _ _ (by decide) (fun _ => decodeOperand_lt _) rfl rfl rfl rfl
        (fun _ h => h) (le_refl _)
    · -- POP
      rcases stack with _ | ⟨x, rest⟩
      · exact frame_ret _ _ _ _ (by decide) rfl rfl (fun _ => rfl) rfl (fun _ h => h) (le_refl _)
      · exact frame_ret _ _ _ _ (by decide) rfl rfl (fun _ => rfl) rfl
          (fun _ h => List.mem_cons_of_mem _ h) (by simp)
    · -- ADD
      rcases stack with _ | ⟨b, _ | ⟨a, rest⟩⟩
      · exact frame_ret _ _ _ _ (by decide) rfl rfl (fun _ => rfl) rfl (fun _ h => h) (le_refl _)
      · exact frame_ret _ ⟨mem, [], pc, gas, st⟩ _ (some .stackUnderflow) (by decide) rfl rfl
          (fun _ => rfl) rfl (fun _ h => by simp at h) (by simp only [List.length_cons, List.length_nil]; omega)
      · exact frame_Push _ ⟨mem, rest, pc, gas, st⟩ _ _ (by decide)
          (fun _ => Nat.mod_lt _ (by unfold W; norm_num)) rfl rfl rfl rfl
          (fun _ h => by simp [h]) (by simp only [List.length_cons, List.length_nil]; omega)
    · -- SUB
      rcases stack with _ | ⟨b, _ | ⟨a, rest⟩⟩
      · exact frame_ret _ _ _ _ (by decide) rfl rfl (fun _ => rfl) rfl (fun _ h => h) (le_refl _)
      · exact frame_ret _ ⟨mem, [], pc, gas, st⟩ _ (some .stackUnderflow) (by decide) rfl rfl
          (fun _ => rfl) rfl (fun _ h => by simp at h) (by simp only [List.length_cons, List.length_nil]; omega)
      · exact frame_Push _ ⟨mem, rest, pc, gas, st⟩ _ _ (by decide)
          (fun _ => Nat.mod_lt _ (by unfold W; norm_num)) rfl rfl rfl rfl
          (fun _ h => by simp [h]) (by simp only [List.length_cons, List.length_nil]; omega)
    · -- MUL
      rcases stack with _ | ⟨b, _ | ⟨a, rest⟩⟩
      · exact frame_ret _ _ _ _ (by decide) rfl rfl (fun _ => rfl) rfl (fun _ h => h) (le_refl _)
      · exact frame_ret _ ⟨mem, [], pc, gas, st⟩ _ (some .stackUnderflow) (by decide) rfl rfl
          (fun _ => rfl) rfl (fun _ h => by simp at h) (by simp only [List.length_cons, List.length_nil]; omega)
      · exact frame_Push _ ⟨mem, rest, pc, gas, st⟩ _ _ (by decide)
          (fun _ => Nat.mod_lt _ (by unfold W; norm_num)) rfl rfl rfl rfl
          (fun _ h => by simp [h]) (by simp only [List.length_cons, List.length_nil]; omega)
    · -- DIV
      rcases stack with _ | ⟨b, _ | ⟨a, rest⟩⟩
      · exact frame_ret _ _ _ _ (by decide) rfl rfl (fun _ => rfl) rfl (fun _ h => h) (le_refl _)
      · by_cases hb : b = 0
        · subst hb
          exact frame_Push _ ⟨mem, [], pc, gas, st⟩ _ _ (by decide)
            (fun _ => by unfold W; norm_num) rfl rfl rfl rfl (fun _ h => by simp at h) (by simp only [List.length_cons, List.length_nil]; omega)
        · have : ExecuteOpcode ⟨mem, [b], pc, gas, st⟩ DIV operand =
              (⟨mem, [], pc, gas, st⟩, some .stackUnderflow) := by
            simp [ExecuteOpcode, DIV, PUSH1, PUSH32, POP, ADD, SUB, MUL, Pop, hb]
          rw [this]
          exact frame_ret _ ⟨mem, [], pc, gas, st⟩ _ (some .stackUnderflow) (by decide) rfl rfl
            (fun _ => rfl) rfl (fun _ h => by simp at h) (by simp only [List.length_cons, List.length_nil]; omega)
      · by_cases hb : b = 0
        · subst hb
          exact frame_Push _ ⟨mem, a :: rest, pc, gas, st⟩ _ _ (by decide)
            (fun _ => by unfold W; norm_num) rfl rfl rfl rfl (fun _ h => by simp [h]) (by simp only [List.length_cons, List.length_nil]; omega)
        · have : ExecuteOpcode ⟨mem, b :: a :: rest, pc, gas, st⟩ DIV operand =
              Push ⟨mem, rest, pc, gas, st⟩ (a / b) := by
            simp [ExecuteOpcode, DIV, PUSH1, PUSH32, POP, ADD, SUB, MUL, Pop, hb]
          rw [this]
          exact frame_Push _ ⟨mem, rest, pc, gas, st⟩ _ _ (by decide)
            (fun h => lt_of_le_of_lt (Nat.div_le_self a b) (h a (by simp))) rfl rfl rfl rfl
            (fun _ h => by simp [h]) (by simp only [List.length_cons, List.length_nil]; omega)
    · -- SSTORE
      rcases stack with _ | ⟨value, _ | ⟨key, rest⟩⟩
      · exact ⟨rfl, rfl, fun _ => rfl, fun h => h, fun h => h, by simp; rfl⟩
      · exact ⟨rfl, rfl, fun _ => rfl, fun _ => by simp [ExecuteOpcode, SSTORE, PUSH1, PUSH32, POP, ADD, SUB, MUL, DIV, Pop],
          fun _ x hx => by simp [ExecuteOpcode, SSTORE, PUSH1, PUSH32, POP, ADD, SUB, MUL, DIV, Pop] at hx, by simp; rfl⟩
      · refine ⟨rfl, rfl, fun h => absurd rfl h, fun h => ?_, fun h x hx => ?_, ?_⟩
        · have : rest.length ≤ (value :: key :: rest).length := by
            simp only [List.length_cons]; omega
          exact le_trans this h
        · exact h x (List.mem_cons_of_mem _ (List.mem_cons_of_mem _ hx))
        · simp; rfl
    · -- SLOAD
      rcases stack with _ | ⟨key, rest⟩
      · exact frame_ret _ _ _ _ (by decide) rfl rfl (fun _ => rfl) rfl (fun _ h => h) (le_refl _)
      · have : ∃ v, v < W ∧ ExecuteOpcode ⟨mem, key :: rest, pc, gas, st⟩ SLOAD operand =
            Push ⟨mem, rest, pc, gas, st⟩ v := by
          cases h : st (fmtHex key) with
          | none =>
            exact ⟨0, by unfold W; norm_num, by
              simp [ExecuteOpcode, SLOAD, SSTORE, DIV, PUSH1, PUSH32, POP, ADD, SUB, MUL, Pop,
                GetStorage, h]⟩
          | some bs =>
            exact ⟨decodeValue bs, decodeValue_lt bs, by
              simp [ExecuteOpcode, SLOAD, SSTORE, DIV, PUSH1, PUSH32, POP, ADD, SUB, MUL, Pop,
                GetStorage, h]⟩
        obtain ⟨v, hv, hEq⟩ := this
        rw [hEq]
        exact frame_Push _ ⟨mem, rest, pc, gas, st⟩ _ _ (by decide) (fun _ => hv) rfl rfl rfl rfl
          (fun _ h => by simp [h]) (by simp only [List.length_cons, List.length_nil]; omega)
    · -- JUMP
      rcases stack with _ | ⟨d, rest⟩
      · exact frame_ret _ _ _ _ (by decide) rfl rfl (fun _ => rfl) rfl (fun _ h => h) (le_refl _)
      · exact frame_ret _ ⟨mem, rest, d, gas, st⟩ _ none (by decide) rfl rfl
          (fun h => absurd rfl h) rfl (fun _ h => by simp [h])
          (by simp only [List.length_cons, List.length_nil]; omega)
    · -- JUMPI
      rcases stack with _ | ⟨c, _ | ⟨d, rest⟩⟩
      · exact frame_ret _ _ _ _ (by decide) rfl rfl (fun _ => rfl) rfl (fun _ h => h) (le_refl _)
      · exact frame_ret _ ⟨mem, [], pc, gas, st⟩ _ (some .stackUnderflow) (by decide) rfl rfl
          (fun _ => rfl) rfl (fun _ h => by simp at h)
          (by simp only [List.length_cons, List.length_nil]; omega)
      · by_cases hc : c = 0
        · subst hc
          exact frame_ret _ ⟨mem, rest, pc, gas, st⟩ _ none (by decide) rfl rfl
            (fun h => absurd rfl h) rfl (fun _ h => by simp [h])
            (by simp only [List.length_cons, List.length_nil]; omega)
        · have : ExecuteOpcode ⟨mem, c :: d :: rest, pc, gas, st⟩ JUMPI operand =
              (⟨mem, rest, d, gas, st⟩, none) := by
            simp [ExecuteOpcode, JUMPI, JUMP, SLOAD, SSTORE, DIV, PUSH1, PUSH32, POP, ADD, SUB,
              MUL, Pop, hc]
          rw [this]
          exact frame_ret _ ⟨mem, rest, d, gas, st⟩ _ none (by decide) rfl rfl
            (fun h => absurd rfl h) rfl (fun _ h => by simp [h])
            (by simp only [List.length_cons, List.length_nil]; omega)
    · -- STOP
      exact frame_ret _ _ _ _ (by decide) rfl rfl (fun _ => rfl) rfl (fun _ h => h) (le_refl _)
  · rw [ExecuteOpcode_unknown vm op operand hk]
    have hop : op ≠ SSTORE := by
      rintro rfl; exact hk (by simp [knownOpcodes])
    exact frame_ret _ _ _ _ hop rfl rfl (fun _ => rfl) rfl (fun _ h => h) (le_refl _)


/-! ## The loop of Execute -/

theorem loop_tail (code : List Byte) (k n : Nat) (vm vm3 : VM) (op : OpCode)
    (operand : List Byte)
    (ih : ∀ vm n, vm.Gas < k → ∃ e, execLoop k vm code n = .done e ∧ LoopPost vm n e)
    (hg1 : 1 ≤ vm.Gas) (hgk : vm.Gas < k + 1)
    (hg : vm3.Gas = vm.Gas - 1) (hs : vm3.Stack = vm.Stack) :
    ∃ e, (match ExecuteOpcode vm3 op operand with
          | (vm4, some err) =>
            Run.done (LoopEnd.mk vm4 (some (.atPC ((vm4.PC + W - 1) % W) err)) (n + 1))
          | (vm4, none) =>
            if op = STOP then Run.done (LoopEnd.mk vm4 none (n + 1))
            else execLoop k vm4 code (n + 1)) = .done e ∧ LoopPost vm n e := by
  have hf := ExecuteOpcode_frame vm3 op operand
  rcases hE : ExecuteOpcode vm3 op operand with ⟨vm4, _ | err⟩
  · rw [hE] at hf
    have h4 : vm4.Gas = vm.Gas - 1 := by rw [← hg]; exact hf.gas
    show ∃ e, (if op = STOP then Run.done (LoopEnd.mk vm4 none (n + 1))
      else execLoop k vm4 code (n + 1)) = .done e ∧ LoopPost vm n e
    by_cases hstop : op = STOP
    · rw [if_pos hstop]
      refine ⟨_, rfl, ?_, ?_, ?_⟩
      · simp only; omega
      · intro h; exact hf.stackLen (by rw [hs]; exact h)
      · intro h; exact hf.stackVal (by rw [hs]; exact h)
    · rw [if_neg hstop]
      obtain ⟨e, he, hp1, hp2, hp3⟩ := ih vm4 (n + 1) (by omega)
      refine ⟨e, he, ?_, ?_, ?_⟩
      · omega
      · intro h; exact hp2 (hf.stackLen (by rw [hs]; exact h))
      · intro h; exact hp3 (hf.stackVal (by rw [hs]; exact h))
  · rw [hE] at hf
    have h4 : vm4.Gas = vm.Gas - 1 := by rw [← hg]; exact hf.gas
    refine ⟨_, rfl, ?_, ?_, ?_⟩
    · simp only; omega
    · intro h; exact hf.stackLen (by rw [hs]; exact h)
    · intro h; exact hf.stackVal (by rw [hs]; exact h)

theorem execLoop_total (code : List Byte) (hlen : code.length ≤ maxCode) :
    ∀ fuel vm n, vm.Gas < fuel →
      ∃ e, execLoop fuel vm code n = .done e ∧ LoopPost vm n e := by
  intro fuel
  induction fuel with
  | zero => intro vm n h; omega
  | succ k ih =>
    intro vm n hgas
    unfold execLoop
    by_cases hpc : vm.PC < code.length
    · rw [if_pos hpc]
      by_cases hg : vm.Gas < 1
      · simp only [ConsumeGas, if_pos hg]
        exact ⟨_, rfl, rfl, fun h => h, fun h => h⟩
      · simp only [ConsumeGas, if_neg hg]
        rw [List.getElem?_eq_getElem hpc]
        simp only
        have hW : (vm.PC + 1) % W = vm.PC + 1 := by
          apply Nat.mod_eq_of_lt; unfold W; unfold maxCode at hlen; omega
        split
        · next hpush =>
          have hsz : (code[vm.PC].val + 256 - PUSH1.val + 1) % 256 ≤ 255 := by omega
          have hW2 : ((vm.PC + 1) % W + (code[vm.PC].val + 256 - PUSH1.val + 1) % 256) % W =
              vm.PC + 1 + (code[vm.PC].val + 256 - PUSH1.val + 1) % 256 := by
            rw [hW]; apply Nat.mod_eq_of_lt; unfold W; unfold maxCode at hlen; omega
          rw [hW2]
          split
          · exact ⟨_, rfl, by simp only; omega, fun h => h, fun h => h⟩
          · next hend =>
            rw [hW]
            have hsl : sliceOf code (vm.PC + 1)
                (vm.PC + 1 + (code[vm.PC].val + 256 - PUSH1.val + 1) % 256) =
                some ((code.drop (vm.PC + 1)).take
                  (vm.PC + 1 + (code[vm.PC].val + 256 - PUSH1.val + 1) % 256 - (vm.PC + 1))) := by
              unfold sliceOf
              rw [if_pos ⟨by omega, by omega⟩]
            rw [hsl]
            refine loop_tail code k n vm _ _ _ ih (by omega) hgas ?_ ?_ <;> rfl
        · refine loop_tail code k n vm _ _ _ ih (by omega) hgas ?_ ?_ <;> rfl
    · rw [if_neg hpc]
      exact ⟨_, rfl, rfl, fun h => h, fun h => h⟩

theorem StepOK_gas {code : List Byte} {vm vm1 : VM} {op : OpCode} (h : StepOK code vm op vm1) :
    1 ≤ vm.Gas ∧ vm1.Gas = vm.Gas - 1 := by
  obtain ⟨hpc, hgas, hop, himm, hexec⟩ := h
  · have hf := ExecuteOpcode_frame { vm with Gas := vm.Gas - 1, PC := vm.PC + 1 + immWidth op } op
      ((code.drop (vm.PC + 1)).take (immWidth op))
    rw [hexec] at hf
    exact ⟨hgas, hf.gas⟩

theorem execLoop_step {code : List Byte} {vm vm1 : VM} {op : OpCode}
    (hlen : code.length ≤ maxCode) (h : StepOK code vm op vm1) (k n : Nat) :
    execLoop (k + 1) vm code n =
      if op = STOP then .done ⟨vm1, none, n + 1⟩ else execLoop k vm1 code (n + 1) := by
  obtain ⟨hpc, hgas, hop, himm, hexec⟩ := h
  · have hW : (vm.PC + 1) % W = vm.PC + 1 := by
      apply Nat.mod_eq_of_lt; unfold W; unfold maxCode at hlen; omega
    rw [execLoop, if_pos hpc]
    simp only [ConsumeGas, if_neg (by omega : ¬ vm.Gas < 1)]
    rw [hop]
    simp only
    by_cases hpush : PUSH1.val ≤ op.val ∧ op.val ≤ PUSH32.val
    · rw [if_pos hpush]
      have hp1 : PUSH1.val = 0x60 := rfl
      have hp2 : PUSH32.val = 0x7f := rfl
      have hw : immWidth op = op.val - 0x60 + 1 := by
        unfold immWidth; rw [if_pos ⟨by omega, by omega⟩]
      have hsz : (op.val + 256 - PUSH1.val + 1) % 256 = immWidth op := by
        rw [hw, hp1]; omega
      rw [hsz, hW]
      have hW2 : (vm.PC + 1 + immWidth op) % W = vm.PC + 1 + immWidth op := by
        apply Nat.mod_eq_of_lt; unfold W; unfold maxCode at hlen; omega
      rw [hW2, if_neg (by omega)]
      have hsl : sliceOf code (vm.PC + 1) (vm.PC + 1 + immWidth op) =
          some ((code.drop (vm.PC + 1)).take (immWidth op)) := by
        unfold sliceOf
        rw [if_pos ⟨by omega, by omega⟩]
        simp
      rw [hsl]
      simp only
      rw [hexec]
    · rw [if_neg hpush]
      have hp1 : PUSH1.val = 0x60 := rfl
      have hp2 : PUSH32.val = 0x7f := rfl
      have hw : immWidth op = 0 := by
        unfold immWidth; rw [if_neg (by omega)]
      rw [hw] at hexec
      simp only [Nat.add_zero, List.take_zero] at hexec
      rw [hW, hexec]

theorem execLoop_of_Halts {code : List Byte} (hlen : code.length ≤ maxCode) {vm vmF : VM}
    (h : Halts code vm vmF) :
    vmF.Gas ≤ vm.Gas ∧ ∀ fuel n, vm.Gas < fuel →
      execLoop fuel vm code n = .done ⟨vmF, none, n + (vm.Gas - vmF.Gas)⟩ := by
  induction h with
  | exhausted vm h =>
    refine ⟨le_refl _, ?_⟩
    intro fuel n hf
    cases fuel with
    | zero => omega
    | succ k =>
      rw [execLoop, if_neg (by omega)]
      simp
  | stop vm vm1 h =>
    obtain ⟨hg1, hg2⟩ := StepOK_gas h
    refine ⟨by omega, ?_⟩
    intro fuel n hf
    cases fuel with
    | zero => omega
    | succ k =>
      rw [execLoop_step hlen h, if_pos rfl, hg2]
      have : vm.Gas - (vm.Gas - 1) = 1 := by omega
      rw [this]
  | step vm vm1 vm2 op h hne hrest ih =>
    obtain ⟨hg1, hg2⟩ := StepOK_gas h
    obtain ⟨ih1, ih2⟩ := ih
    refine ⟨by omega, ?_⟩
    intro fuel n hf
    cases fuel with
    | zero => omega
    | succ k =>
      rw [execLoop_step hlen h, if_neg hne, ih2 k (n + 1) (by omega)]
      have : n + 1 + (vm1.Gas - vm2.Gas) = n + (vm.Gas - vm2.Gas) := by omega
      rw [this]


/-! ## Execute in terms of its loop -/

theorem Store_NewVM (code : List Byte) (h : code.length ≤ maxCode) :
    Store NewVM 0 code = .done (startVM code, none) := by
  have hs : NewVM.Memory.size = maxCode := rfl
  have hW : (0 + code.length) % W = code.length := by
    rw [Nat.zero_add]; apply Nat.mod_eq_of_lt; unfold W; unfold maxCode at h; omega
  unfold Store
  rw [hW, hs, if_neg (by omega)]
  unfold startVM copyInto
  rw [if_pos (Nat.zero_le _)]
  rfl

theorem startVM_Gas (code : List Byte) : (startVM code).Gas = 100000 := rfl
theorem startVM_Stack (code : List Byte) : (startVM code).Stack = [] := rfl

theorem ExecuteTrace_eq {α : Type} (contract : Contract α) (input : List Byte)
    (h : contract.Bytecode.length ≤ maxCode) :
    ∃ e, execLoop 100001 (startVM contract.Bytecode) contract.Bytecode 0 = .done e ∧
      LoopPost (startVM contract.Bytecode) 0 e ∧
      ExecuteTrace contract input = .done (resultOf 100000 e, e.fetched) := by
  obtain ⟨e, he, hp⟩ := execLoop_total contract.Bytecode h 100001 (startVM contract.Bytecode) 0
    (by rw [startVM_Gas]; omega)
  refine ⟨e, he, hp, ?_⟩
  unfold ExecuteTrace
  rw [Store_NewVM _ h]
  show (match execLoop 100001 (startVM contract.Bytecode) contract.Bytecode 0 with
    | .panic => Run.panic
    | .timeout => Run.timeout
    | .done e => Run.done (resultOf 100000 e, e.fetched)) = _
  rw [he]

theorem Execute_eq {α : Type} (contract : Contract α) (input : List Byte)
    (r : ExecutionResult) (n : Nat) (h : ExecuteTrace contract input = .done (r, n)) :
    Execute contract input = .done r := by
  unfold Execute
  rw [h]


/-! ## Helper lemmas for the properties -/

theorem Execute_of_Halts {α : Type} (contract : Contract α) (input : List Byte) (vmF : VM)
    (hlen : contract.Bytecode.length ≤ maxCode)
    (hhalt : Halts contract.Bytecode (startVM contract.Bytecode) vmF) :
    Execute contract input =
        .done { Success := true, ReturnData := returnDataOf vmF.Stack,
                GasUsed := 100000 - vmF.Gas, Error := none } ∧
      (vmF.Stack = [] → returnDataOf vmF.Stack = []) ∧
      (∀ top rest, vmF.Stack = top :: rest →
        (returnDataOf vmF.Stack).length = 8 ∧ beValue (returnDataOf vmF.Stack) = top) := by
  obtain ⟨e, he, hp, ht⟩ := ExecuteTrace_eq contract input hlen
  obtain ⟨hle, hloop⟩ := execLoop_of_Halts hlen hhalt
  have hl := hloop 100001 0 (by rw [startVM_Gas]; omega)
  rw [hl] at he
  have he2 : e = ⟨vmF, none, 0 + ((startVM contract.Bytecode).Gas - vmF.Gas)⟩ := by
    injection he with he; exact he.symm
  subst he2
  rw [startVM_Gas] at hle
  refine ⟨?_, ?_, ?_⟩
  · rw [Execute_eq _ _ _ _ ht]
    have : (100000 + W - vmF.Gas) % W = 100000 - vmF.Gas := by unfold W; omega
    simp only [resultOf, this]
  · intro h; rw [h]; rfl
  · intro top rest h
    have hv : top < W := hp.2.2 (by rw [startVM_Stack]; simp) top (by
      show top ∈ vmF.Stack
      rw [h]; simp)
    rw [h, returnDataOf_cons]
    exact ⟨rfl, beValue_bytes top hv⟩

theorem Halts_of_Reaches {code : List Byte} {a b c : VM} (h : Reaches code a b)
    (hb : Halts code b c) : Halts code a c := by
  induction h with
  | refl vm => exact hb
  | step vm vm1 vm2 op hs hne _ ih => exact Halts.step vm vm1 c op hs hne (ih hb)

theorem immWidth_JUMP : immWidth JUMP = 0 := rfl
theorem immWidth_JUMPI : immWidth JUMPI = 0 := rfl

theorem decodeOperand_single (v : Byte) : decodeOperand [v] = v.val := by
  simp [decodeOperand, shiftOr_eq, W]

theorem toByte_val (v : Byte) : toByte v.val = v := by
  apply Fin.ext
  show v.val % 256 = v.val
  exact Nat.mod_eq_of_lt v.isLt

theorem returnDataOf_byte (v : Byte) (s : List Nat) :
    returnDataOf (v.val :: s) = [0, 0, 0, 0, 0, 0, 0, v] := by
  rw [returnDataOf_cons, toByte_val]
  have hv : v.val < 256 := v.isLt
  have h0 : ∀ n, 8 ≤ n → toByte (v.val >>> n) = 0 := by
    intro n hn
    apply Fin.ext
    show (v.val >>> n) % 256 = 0
    rw [Nat.shiftRight_eq_div_pow]
    have : v.val / 2 ^ n = 0 := by
      apply Nat.div_eq_of_lt
      calc v.val < 2 ^ 8 := hv
        _ ≤ 2 ^ n := Nat.pow_le_pow_right (by norm_num) hn
    rw [this]
  rw [h0 56 (by norm_num), h0 48 (by norm_num), h0 40 (by norm_num), h0 32 (by norm_num),
    h0 24 (by norm_num), h0 16 (by norm_num), h0 8 (by norm_num)]

theorem ExecuteOpcode_SLOAD (vm : VM) (key : Nat) (rest : List Nat) (operand : List Byte) :
    ExecuteOpcode { vm with Stack := key :: rest } SLOAD operand =
      Push { vm with Stack := rest } (sloadOf vm.Storage key) := by
  unfold sloadOf
  cases h : vm.Storage (fmtHex key) with
  | none =>
    simp [ExecuteOpcode, SLOAD, SSTORE, DIV, PUSH1, PUSH32, POP, ADD, SUB, MUL, Pop,
      GetStorage, h]
  | some bs =>
    simp [ExecuteOpcode, SLOAD, SSTORE, DIV, PUSH1, PUSH32, POP, ADD, SUB, MUL, Pop,
      GetStorage, h]

theorem sloadOf_set (st : String → Option (List Byte)) (key value k : Nat)
    (hkey : key < W) (hvalue : value < W) (hk : k < W) :
    sloadOf (fun s => if s = fmtHex key then some (encodeValue value) else st s) k =
      if key = k then value else sloadOf st k := by
  unfold sloadOf
  by_cases h : key = k
  · subst h
    simp [decodeValue_encodeValue value hvalue]
  · have hne : fmtHex k ≠ fmtHex key := fun he => h (fmtHex_inj k key hk hkey he).symm
    simp [h, hne]


theorem ExecuteOpcode_PUSH1_byte (vm : VM) (b : Byte) (h : vm.Stack.length < 1024) :
    ExecuteOpcode vm PUSH1 [b] = ({ vm with Stack := b.val :: vm.Stack }, none) := by
  rw [ExecuteOpcode_PUSH1, Push_ok _ _ h, decodeOperand_single]

theorem storeLoad_halts (a b c : Byte) :
    Halts (storeLoadProgram a b c) (startVM (storeLoadProgram a b c))
      { startVM (storeLoadProgram a b c) with
        Stack := [if a = c then b.val else 0], PC := 9, Gas := 99994,
        Storage := fun s => if s = fmtHex a.val then some (encodeValue b.val) else none } := by
  have hb : b.val < W := lt_trans b.isLt (by unfold W; norm_num)
  have ha : a.val < W := lt_trans a.isLt (by unfold W; norm_num)
  have hc : c.val < W := lt_trans c.isLt (by unfold W; norm_num)
  refine Halts.step _ { startVM (storeLoadProgram a b c) with
      Stack := [a.val], PC := 2, Gas := 99999 } _ PUSH1
    ⟨Nat.le_of_ble_eq_true rfl, Nat.le_of_ble_eq_true rfl, rfl, Nat.le_of_ble_eq_true rfl,
      ExecuteOpcode_PUSH1_byte _ a (Nat.le_of_ble_eq_true rfl)⟩ (by decide) ?_
  refine Halts.step _ { startVM (storeLoadProgram a b c) with
      Stack := [b.val, a.val], PC := 4, Gas := 99998 } _ PUSH1
    ⟨Nat.le_of_ble_eq_true rfl, Nat.le_of_ble_eq_true rfl, rfl, Nat.le_of_ble_eq_true rfl,
      ExecuteOpcode_PUSH1_byte _ b (Nat.le_of_ble_eq_true rfl)⟩ (by decide) ?_
  refine Halts.step _ { startVM (storeLoadProgram a b c) with
      Stack := [], PC := 5, Gas := 99997,
      Storage := fun s => if s = fmtHex a.val then some (encodeValue b.val) else none } _ SSTORE
    ⟨Nat.le_of_ble_eq_true rfl, Nat.le_of_ble_eq_true rfl, rfl, Nat.le_of_ble_eq_true rfl,
      rfl⟩ (by decide) ?_
  refine Halts.step _ { startVM (storeLoadProgram a b c) with
      Stack := [c.val], PC := 7, Gas := 99996,
      Storage := fun s => if s = fmtHex a.val then some (encodeValue b.val) else none } _ PUSH1
    ⟨Nat.le_of_ble_eq_true rfl, Nat.le_of_ble_eq_true rfl, rfl, Nat.le_of_ble_eq_true rfl,
      ExecuteOpcode_PUSH1_byte _ c (Nat.le_of_ble_eq_true rfl)⟩ (by decide) ?_
  have hload : sloadOf (fun s => if s = fmtHex a.val then some (encodeValue b.val) else none)
      c.val = if a = c then b.val else 0 := by
    have := sloadOf_set (fun _ => none) a.val b.val c.val ha hb hc
    rw [this]
    by_cases hac : a = c
    · subst hac; simp
    · have : a.val ≠ c.val := fun h => hac (Fin.ext h)
      simp [hac, this, sloadOf]
  refine Halts.step _ { startVM (storeLoadProgram a b c) with
      Stack := [if a = c then b.val else 0], PC := 8, Gas := 99995,
      Storage := fun s => if s = fmtHex a.val then some (encodeValue b.val) else none } _ SLOAD
    ⟨Nat.le_of_ble_eq_true rfl, Nat.le_of_ble_eq_true rfl, rfl, Nat.le_of_ble_eq_true rfl,
      ?_⟩ (by decide) ?_
  · rw [← hload]
    have h1 := ExecuteOpcode_SLOAD { startVM (storeLoadProgram a b c) with
      PC := 8, Gas := 99995,
      Storage := fun s => if s = fmtHex a.val then some (encodeValue b.val) else none }
      c.val [] []
    have h2 := Push_ok { startVM (storeLoadProgram a b c) with
      Stack := [], PC := 8, Gas := 99995,
      Storage := fun s => if s = fmtHex a.val then some (encodeValue b.val) else none }
      (sloadOf (fun s => if s = fmtHex a.val then some (encodeValue b.val) else none) c.val)
      (Nat.le_of_ble_eq_true rfl)
    exact h1.trans h2
  exact Halts.stop _ _
    ⟨Nat.le_of_ble_eq_true rfl, Nat.le_of_ble_eq_true rfl, rfl, Nat.le_of_ble_eq_true rfl, rfl⟩

theorem lastWrite_append (ws : List (Nat × Nat)) (key value k : Nat) :
    lastWrite (ws ++ [(key, value)]) k = if key = k then value else lastWrite ws k := by
  unfold lastWrite
  rw [List.reverse_append]
  by_cases h : key = k
  · simp [h]
  · simp [List.find?, h]

theorem StoreInv_step (vm : VM) (ws : List (Nat × Nat)) (o : OpCode × List Byte)
    (h : StoreInv vm ws) :
    StoreInv (ExecuteOpcode vm o.1 o.2).1
      (ws ++ (if o.1 = SSTORE then
        match vm.Stack with
        | value :: key :: _ => [(key, value)]
        | _ => []
       else [])) := by
  obtain ⟨h1, h2, h3⟩ := h
  have hf := ExecuteOpcode_frame vm o.1 o.2
  refine ⟨hf.stackLen h1, hf.stackVal h2, ?_⟩
  intro k hk
  rw [hf.storage]
  by_cases hop : o.1 = SSTORE
  · rw [if_pos hop, if_pos hop]
    rcases hs : vm.Stack with _ | ⟨value, _ | ⟨key, rest⟩⟩
    · simpa using h3 k hk
    · simpa using h3 k hk
    · have hv : value < W := h2 value (by rw [hs]; simp)
      have hkey : key < W := h2 key (by rw [hs]; simp)
      simp only
      rw [sloadOf_set _ _ _ _ hkey hv hk, lastWrite_append, h3 k hk]
  · rw [if_neg hop, if_neg hop]
    simpa using h3 k hk

theorem StoreInv_runOps (ops : List (OpCode × List Byte)) :
    ∀ vm ws, StoreInv vm ws → StoreInv (runOps vm ops) (ws ++ writesOf vm ops) := by
  induction ops with
  | nil => intro vm ws h; simpa [runOps, writesOf] using h
  | cons o ops ih =>
    intro vm ws h
    have := ih _ _ (StoreInv_step vm ws o h)
    rw [List.append_assoc] at this
    exact this

theorem StoreInv_NewVM : StoreInv NewVM [] := by
  refine ⟨by decide, ?_, ?_⟩
  · intro x hx; cases hx
  · intro k _; rfl

set_option maxRecDepth 100000 in
theorem Execute_div_by_zero : ∀ x : Byte,
    Execute (mkContract [0x60, x, 0x60, 0x00, 0x04, 0x00]) [] =
      .done { Success := true, ReturnData := [0, 0, 0, 0, 0, 0, 0, 0], GasUsed := 4,
              Error := none } := by
  decide

/-- One iteration of the loop inside the bytecode either is a step that does
not fail, or makes the loop return with an error. -/
theorem step_or_fail (code : List Byte) (hlen : code.length ≤ maxCode) (vm : VM)
    (hpc : vm.PC < code.length) :
    (∃ op vm1, StepOK code vm op vm1) ∨
      ∀ k n, ∃ e, execLoop (k + 1) vm code n = .done e ∧ e.err ≠ none := by
  by_cases hg : vm.Gas < 1
  · right
    intro k n
    rw [execLoop, if_pos hpc]
    simp only [ConsumeGas, if_pos hg]
    exact ⟨_, rfl, by simp⟩
  · have hW : (vm.PC + 1) % W = vm.PC + 1 := by
      apply Nat.mod_eq_of_lt; unfold W; unfold maxCode at hlen; omega
    have hp1 : PUSH1.val = 0x60 := rfl
    have hp2 : PUSH32.val = 0x7f := rfl
    by_cases himm : vm.PC + 1 + immWidth code[vm.PC] ≤ code.length
    · rcases hE : ExecuteOpcode
          { vm with Gas := vm.Gas - 1, PC := vm.PC + 1 + immWidth code[vm.PC] } code[vm.PC]
          ((code.drop (vm.PC + 1)).take (immWidth code[vm.PC])) with ⟨vm1, _ | err⟩
      · left
        exact ⟨code[vm.PC], vm1, hpc, by omega, List.getElem?_eq_getElem hpc, himm, hE⟩
      · right
        intro k n
        rw [execLoop, if_pos hpc]
        simp only [ConsumeGas, if_neg hg]
        rw [List.getElem?_eq_getElem hpc]
        simp only
        by_cases hpush : PUSH1.val ≤ code[vm.PC].val ∧ code[vm.PC].val ≤ PUSH32.val
        · rw [if_pos hpush]
          have hw : immWidth code[vm.PC] = code[vm.PC].val - 0x60 + 1 := by
            unfold immWidth; rw [if_pos ⟨by omega, by omega⟩]
          have hsz : (code[vm.PC].val + 256 - PUSH1.val + 1) % 256 = immWidth code[vm.PC] := by
            rw [hw, hp1]; omega
          rw [hsz, hW]
          have hW2 : (vm.PC + 1 + immWidth code[vm.PC]) % W =
              vm.PC + 1 + immWidth code[vm.PC] := by
            apply Nat.mod_eq_of_lt; unfold W; unfold maxCode at hlen; omega
          rw [hW2, if_neg (by omega)]
          have hsl : sliceOf code (vm.PC + 1) (vm.PC + 1 + immWidth code[vm.PC]) =
              some ((code.drop (vm.PC + 1)).take (immWidth code[vm.PC])) := by
            unfold sliceOf
            rw [if_pos ⟨by omega, by omega⟩]
            simp
          rw [hsl]
          simp only
          rw [hE]
          exact ⟨_, rfl, by simp⟩
        · rw [if_neg hpush]
          have hw : immWidth code[vm.PC] = 0 := by
            unfold immWidth; rw [if_neg (by omega)]
          rw [hw] at hE
          simp only [Nat.add_zero, List.take_zero] at hE
          rw [hW, hE]
          exact ⟨_, rfl, by simp⟩
    · right
      intro k n
      rw [execLoop, if_pos hpc]
      simp only [ConsumeGas, if_neg hg]
      rw [List.getElem?_eq_getElem hpc]
      simp only
      have hpush : PUSH1.val ≤ code[vm.PC].val ∧ code[vm.PC].val ≤ PUSH32.val := by
        by_contra hn
        have hw : immWidth code[vm.PC] = 0 := by
          unfold immWidth; rw [if_neg (by omega)]
        omega
      rw [if_pos hpush]
      have hw : immWidth code[vm.PC] = code[vm.PC].val - 0x60 + 1 := by
        unfold immWidth; rw [if_pos ⟨by omega, by omega⟩]
      have hsz : (code[vm.PC].val + 256 - PUSH1.val + 1) % 256 = immWidth code[vm.PC] := by
        rw [hw, hp1]; omega
      rw [hsz, hW]
      have hW2 : (vm.PC + 1 + immWidth code[vm.PC]) % W =
          vm.PC + 1 + immWidth code[vm.PC] := by
        apply Nat.mod_eq_of_lt; unfold W; unfold maxCode at hlen; omega
      rw [hW2, if_pos (by omega)]
      exact ⟨_, rfl, by simp⟩

/-- The loop of `Execute` ends without an error only in the state Stopped. -/
theorem Halts_of_execLoop (code : List Byte) (hlen : code.length ≤ maxCode) :
    ∀ fuel vm n e, execLoop fuel vm code n = .done e → e.err = none → Halts code vm e.vm := by
  intro fuel
  induction fuel with
  | zero => intro vm n e h; simp [execLoop] at h
  | succ k ih =>
    intro vm n e h herr
    by_cases hpc : vm.PC < code.length
    · rcases step_or_fail code hlen vm hpc with ⟨op, vm1, hs⟩ | hfail
      · rw [execLoop_step hlen hs] at h
        by_cases hstop : op = STOP
        · rw [if_pos hstop] at h
          injection h with h
          subst h
          subst hstop
          exact Halts.stop _ _ hs
        · rw [if_neg hstop] at h
          exact Halts.step _ _ _ op hs hstop (ih vm1 (n + 1) e h herr)
      · obtain ⟨e2, he2, hne⟩ := hfail k n
        rw [he2] at h
        injection h with h
        subst h
        exact absurd herr hne
    · rw [execLoop, if_neg hpc] at h
      injection h with h
      subst h
      exact Halts.exhausted _ (by omega)

/-! ## Properties of the virtual machine -/

/-- Claim C1: a bytecode whose execution ends without a fault, by executing
STOP or by the program counter reaching or exceeding the bytecode length (the
empty bytecode included), makes `Execute` return `Success = true` with no
`Error`; `ReturnData` is empty when the final stack is empty and is otherwise
the 8-byte big-endian encoding of the value on top of the final stack. -/
theorem execute_stopped_returns_top {α : Type} (contract : Contract α) (input : List Byte)
    (vmF : VM) (hlen : contract.Bytecode.length ≤ maxCode)
    (hhalt : Halts contract.Bytecode (startVM contract.Bytecode) vmF) :
    Execute contract input =
        .done { Success := true, ReturnData := returnDataOf vmF.Stack,
                GasUsed := 100000 - vmF.Gas, Error := none } ∧
      (vmF.Stack = [] → returnDataOf vmF.Stack = []) ∧
      (∀ top rest, vmF.Stack = top :: rest →
        (returnDataOf vmF.Stack).length = 8 ∧ beValue (returnDataOf vmF.Stack) = top) :=
  Execute_of_Halts contract input vmF hlen hhalt

/-- Witness of C1: `PUSH1 1, PUSH1 2, ADD, STOP` halts with 3 on top and
returns `00 00 00 00 00 00 00 03` with `GasUsed = 4`; the empty bytecode
returns no data. -/
theorem execute_stopped_returns_top_witness :
    Execute (mkContract [0x60, 0x01, 0x60, 0x02, 0x01, 0x00]) [] =
        .done { Success := true, ReturnData := [0, 0, 0, 0, 0, 0, 0, 3], GasUsed := 4,
                Error := none } ∧
      Execute (mkContract []) [] =
        .done { Success := true, ReturnData := [], GasUsed := 0, Error := none } ∧
      Halts [0x60, 0x01, 0x60, 0x02, 0x01, 0x00]
        (startVM [0x60, 0x01, 0x60, 0x02, 0x01, 0x00])
        { startVM [0x60, 0x01, 0x60, 0x02, 0x01, 0x00] with
          Stack := [3], PC := 6, Gas := 99996 } ∧
      Execute (mkContract [0x60, 0x01, 0x60, 0x02, 0x01, 0x00]) [] =
        .done { Success := true, ReturnData := returnDataOf [3],
                GasUsed := 100000 - 99996, Error := none } := by
  have hh : Halts [0x60, 0x01, 0x60, 0x02, 0x01, 0x00]
      (startVM [0x60, 0x01, 0x60, 0x02, 0x01, 0x00])
      { startVM [0x60, 0x01, 0x60, 0x02, 0x01, 0x00] with
        Stack := [3], PC := 6, Gas := 99996 } := by
    refine Halts.step _ { startVM [0x60, 0x01, 0x60, 0x02, 0x01, 0x00] with
        Stack := [1], PC := 2, Gas := 99999 } _ PUSH1
      ⟨by decide, by decide, rfl, by decide, rfl⟩ (by decide) ?_
    refine Halts.step _ { startVM [0x60, 0x01, 0x60, 0x02, 0x01, 0x00] with
        Stack := [2, 1], PC := 4, Gas := 99998 } _ PUSH1
      ⟨by decide, by decide, rfl, by decide, rfl⟩ (by decide) ?_
    refine Halts.step _ { startVM [0x60, 0x01, 0x60, 0x02, 0x01, 0x00] with
        Stack := [3], PC := 5, Gas := 99997 } _ ADD
      ⟨by decide, by decide, rfl, by decide, rfl⟩ (by decide) ?_
    exact Halts.stop _ _ ⟨by decide, by decide, rfl, by decide, rfl⟩
  exact ⟨by decide, by decide, hh,
    (execute_stopped_returns_top (mkContract [0x60, 0x01, 0x60, 0x02, 0x01, 0x00]) [] _
      (by decide) hh).1⟩

/-- Claim C2, at the failing input `PUSH2 0x00 0x01, STOP`: the dispatch has a
case for `PUSH1` and `PUSH32` only, so the opcode 0x61 is answered with an
unknown-opcode error and `Execute` fails, although the loop has read the two
bytes of its immediate. -/
theorem push2_is_unknown_opcode :
    ExecuteOpcode NewVM 0x61 [0x00, 0x01] = (NewVM, some (.unknownOpcode 0x61)) ∧
      Execute (mkContract [0x61, 0x00, 0x01, 0x00]) [] =
        .done { Success := false, ReturnData := [], GasUsed := 1,
                Error := some (.atPC 2 (.unknownOpcode 0x61)) } :=
  ⟨rfl, by decide⟩

/-- Counterexample to C3: on `PUSH1 0x05, PUSH1 0x00, SSTORE, PUSH1 0x00, SLOAD,
STOP` the final top of the stack is 0, not 5: `SSTORE` takes the value from
the top of the stack and the key beneath it, so it stores 0 under key 5. -/
theorem sstore_sload_scenario_counterexample :
    Execute (mkContract [0x60, 0x05, 0x60, 0x00, 0x55, 0x60, 0x00, 0x54, 0x00]) [] =
        .done { Success := true, ReturnData := [0, 0, 0, 0, 0, 0, 0, 0], GasUsed := 6,
                Error := none } ∧
      Execute (mkContract [0x60, 0x05, 0x60, 0x00, 0x55, 0x60, 0x00, 0x54, 0x00]) [] ≠
        .done { Success := true, ReturnData := [0, 0, 0, 0, 0, 0, 0, 5], GasUsed := 6,
                Error := none } :=
  ⟨by decide, by decide⟩

/-- Claim C3, amended: for every value byte `v` and key byte `k`, `Execute` on
`PUSH1 k, PUSH1 v, SSTORE, PUSH1 k, SLOAD, STOP` (key pushed first, value on
top) succeeds and the final top of the stack, hence `ReturnData`, is `v`; on
`PUSH1 v, PUSH1 k, SSTORE, PUSH1 k, SLOAD, STOP` it succeeds with final top
`v` when `v = k` and 0 otherwise. -/
theorem store_then_load_roundtrip (v k : Byte) :
    Execute (mkContract [0x60, k, 0x60, v, 0x55, 0x60, k, 0x54, 0x00]) [] =
        .done { Success := true, ReturnData := [0, 0, 0, 0, 0, 0, 0, v], GasUsed := 6,
                Error := none } ∧
      Execute (mkContract [0x60, v, 0x60, k, 0x55, 0x60, k, 0x54, 0x00]) [] =
        .done { Success := true,
                ReturnData := [0, 0, 0, 0, 0, 0, 0, if v = k then v else 0],
                GasUsed := 6, Error := none } := by
  constructor
  · have h : Execute (mkContract (storeLoadProgram k v k)) [] =
        .done { Success := true, ReturnData := returnDataOf [if k = k then v.val else 0],
                GasUsed := 100000 - 99994, Error := none } :=
      (Execute_of_Halts (mkContract (storeLoadProgram k v k)) [] _
        (by simp [mkContract, storeLoadProgram, maxCode]) (storeLoad_halts k v k)).1
    have hr : returnDataOf [if k = k then v.val else 0] = [0, 0, 0, 0, 0, 0, 0, v] := by
      rw [if_pos rfl]; exact returnDataOf_byte v []
    rw [hr] at h
    exact h
  · have h : Execute (mkContract (storeLoadProgram v k k)) [] =
        .done { Success := true, ReturnData := returnDataOf [if v = k then k.val else 0],
                GasUsed := 100000 - 99994, Error := none } :=
      (Execute_of_Halts (mkContract (storeLoadProgram v k k)) [] _
        (by simp [mkContract, storeLoadProgram, maxCode]) (storeLoad_halts v k k)).1
    have hr : returnDataOf [if v = k then k.val else 0] =
        [0, 0, 0, 0, 0, 0, 0, if v = k then v else 0] := by
      by_cases hvk : v = k
      · subst hvk; rw [if_pos rfl, if_pos rfl]; exact returnDataOf_byte v []
      · rw [if_neg hvk, if_neg hvk]; exact returnDataOf_byte 0 []
    rw [hr] at h
    exact h

/-- Claim C4: storage is a last-write-wins map with default 0. After any
sequence of `ExecuteOpcode` calls on a `NewVM`, `SLOAD` with key `k` on top of
the stack returns no error and replaces `k` by the value of the most recent
`SSTORE` executed with key `k` (stack `[.., k, value]`), or by 0 when there
was none; and an `SSTORE` to another key leaves the entry of `k` as it is. -/
theorem storage_last_write_wins (ops : List (OpCode × List Byte)) (k : Nat) (rest : List Nat)
    (operand : List Byte) (hk : (runOps NewVM ops).Stack = k :: rest) :
    ExecuteOpcode (runOps NewVM ops) SLOAD operand =
        ({ runOps NewVM ops with Stack := lastWrite (writesOf NewVM ops) k :: rest }, none) ∧
      ∀ (value key : Nat) (below : List Nat) (operand2 : List Byte),
        key < W → k ≠ key →
        (ExecuteOpcode { runOps NewVM ops with Stack := value :: key :: below }
            SSTORE operand2).1.Storage (fmtHex k) =
          (runOps NewVM ops).Storage (fmtHex k) := by
  obtain ⟨h1, h2, h3⟩ := by simpa using StoreInv_runOps ops NewVM [] StoreInv_NewVM
  have hkW : k < W := h2 k (by rw [hk]; simp)
  have hr : rest.length < 1024 := by
    rw [hk] at h1; simp only [List.length_cons] at h1; omega
  refine ⟨?_, ?_⟩
  · have h4 := ExecuteOpcode_SLOAD (runOps NewVM ops) k rest operand
    rw [← hk] at h4
    have h5 : ({ runOps NewVM ops with Stack := (runOps NewVM ops).Stack } : VM) =
        runOps NewVM ops := rfl
    rw [h5] at h4
    rw [h4, Push_ok _ _ hr, h3 k hkW]
  · intro value key below operand2 hkey hne
    rw [ExecuteOpcode_SSTORE]
    have : fmtHex k ≠ fmtHex key := fun he => hne (fmtHex_inj k key hkW hkey he)
    simp [SetStorage, this]

/-- Witness of C4: key 7 is written 9, then 4, key 8 is written 5; `SLOAD` of
key 7 returns 4. -/
theorem storage_last_write_wins_witness :
    (runOps NewVM [(PUSH1, [7]), (PUSH1, [9]), (SSTORE, []), (PUSH1, [7]), (PUSH1, [4]),
        (SSTORE, []), (PUSH1, [8]), (PUSH1, [5]), (SSTORE, []), (PUSH1, [7])]).Stack = [7] ∧
      (ExecuteOpcode (runOps NewVM [(PUSH1, [7]), (PUSH1, [9]), (SSTORE, []), (PUSH1, [7]),
        (PUSH1, [4]), (SSTORE, []), (PUSH1, [8]), (PUSH1, [5]), (SSTORE, []), (PUSH1, [7])])
        SLOAD []).1.Stack = [4] := by
  have h := (storage_last_write_wins [(PUSH1, [7]), (PUSH1, [9]), (SSTORE, []), (PUSH1, [7]),
    (PUSH1, [4]), (SSTORE, []), (PUSH1, [8]), (PUSH1, [5]), (SSTORE, []), (PUSH1, [7])]
    7 [] [] (by decide)).1
  refine ⟨by decide, ?_⟩
  rw [h]
  decide

/-- Claim C5, at the failing input stack `[7, 0]` (0 on top): `DIV` returns no
error but pops the divisor only and pushes 0, so the dividend 7 stays on the
stack and the stack is not one element shorter. -/
theorem div_by_zero_keeps_dividend :
    ExecuteOpcode { NewVM with Stack := [0, 7] } DIV [] =
      ({ NewVM with Stack := [0, 7] }, none) := rfl

/-- Claim C6: on every machine state whose stack (within its capacity of 1024)
has 0 on top, `DIV` returns no error and leaves 0 on top of the stack; and
`Execute` on `PUSH1 x, PUSH1 0x00, DIV, STOP` succeeds for every byte `x` with
eight zero bytes as `ReturnData`. -/
theorem div_zero_on_top (vm : VM) (rest : List Nat) (operand : List Byte)
    (hcap : (0 :: rest).length ≤ 1024) :
    ExecuteOpcode { vm with Stack := 0 :: rest } DIV operand =
        ({ vm with Stack := 0 :: rest }, none) ∧
      ∀ x : Byte, Execute (mkContract [0x60, x, 0x60, 0x00, 0x04, 0x00]) [] =
        .done { Success := true, ReturnData := [0, 0, 0, 0, 0, 0, 0, 0], GasUsed := 4,
                Error := none } := by
  have hr : rest.length < 1024 := by simp only [List.length_cons] at hcap; omega
  exact ⟨by rw [ExecuteOpcode_DIV_zero, Push_ok _ _ hr], Execute_div_by_zero⟩

/-- Witness of C6: the stack `[1, 0]` (0 on top) and the byte `x = 0x01`. -/
theorem div_zero_on_top_witness :
    ExecuteOpcode { NewVM with Stack := [0, 1] } DIV [] =
        ({ NewVM with Stack := [0, 1] }, none) ∧
      Execute (mkContract [0x60, 0x01, 0x60, 0x00, 0x04, 0x00]) [] =
        .done { Success := true, ReturnData := [0, 0, 0, 0, 0, 0, 0, 0], GasUsed := 4,
                Error := none } :=
  ⟨(div_zero_on_top NewVM [1] [] (by decide)).1,
   (div_zero_on_top NewVM [1] [] (by decide)).2 0x01⟩

/-- Claim C7: on every machine state whose stack (within its capacity of 1024)
holds `b` on top and `a` beneath it, both 64-bit words, `ADD`, `SUB` and `MUL`
return no error, remove `a` and `b` and push `(a + b) mod 2^64`,
`(a - b) mod 2^64` and `(a * b) mod 2^64`; the rest of the stack, the
program counter, gas, memory and storage are unchanged. -/
theorem arith_wraps (vm : VM) (a b : Nat) (rest : List Nat) (operand : List Byte)
    (ha : a < 2 ^ 64) (hb : b < 2 ^ 64) (hcap : (b :: a :: rest).length ≤ 1024) :
    ExecuteOpcode { vm with Stack := b :: a :: rest } ADD operand =
        ({ vm with Stack := (a + b) % 2 ^ 64 :: rest }, none) ∧
      ExecuteOpcode { vm with Stack := b :: a :: rest } SUB operand =
        ({ vm with Stack := (((a : Int) - (b : Int)) % 2 ^ 64).toNat :: rest }, none) ∧
      ExecuteOpcode { vm with Stack := b :: a :: rest } MUL operand =
        ({ vm with Stack := (a * b) % 2 ^ 64 :: rest }, none) := by
  have hr : rest.length < 1024 := by simp only [List.length_cons] at hcap; omega
  have hsub : (a + W - b) % W = (((a : Int) - (b : Int)) % 2 ^ 64).toNat := by
    unfold W; omega
  refine ⟨?_, ?_, ?_⟩
  · rw [ExecuteOpcode_ADD, Push_ok _ _ hr]; rfl
  · rw [ExecuteOpcode_SUB, Push_ok _ _ hr, hsub]
  · rw [ExecuteOpcode_MUL, Push_ok _ _ hr]; rfl

/-- Witness of C7: `SUB` with `a = 0`, `b = 1` pushes `2^64 - 1`; `ADD` on the
same stack pushes 1; `MUL` of 2 and `2^63` wraps to 0. -/
theorem arith_wraps_witness :
    ExecuteOpcode { NewVM with Stack := [1, 0] } SUB [] =
        ({ NewVM with Stack := [2 ^ 64 - 1] }, none) ∧
      ExecuteOpcode { NewVM with Stack := [1, 0] } ADD [] =
        ({ NewVM with Stack := [1] }, none) ∧
      ExecuteOpcode { NewVM with Stack := [2 ^ 63, 2] } MUL [] =
        ({ NewVM with Stack := [0] }, none) :=
  ⟨(arith_wraps NewVM 0 1 [] [] (by norm_num) (by norm_num) (by decide)).2.1,
   (arith_wraps NewVM 0 1 [] [] (by norm_num) (by norm_num) (by decide)).1,
   (arith_wraps NewVM 2 (2 ^ 63) [] [] (by norm_num) (by norm_num) (by decide)).2.2⟩

/-- Counterexample to C8: `PUSH1 0xFF, JUMP` jumps to 255, beyond the 3 bytes
of the bytecode, and `Execute` returns success, not a failure. -/
theorem jump_out_of_range_counterexample :
    Execute (mkContract [0x60, 0xFF, 0x56]) [] =
        .done { Success := true, ReturnData := [], GasUsed := 2, Error := none } ∧
      ¬ ∃ r, Execute (mkContract [0x60, 0xFF, 0x56]) [] = .done r ∧ r.Success = false := by
  have h : Execute (mkContract [0x60, 0xFF, 0x56]) [] =
      .done { Success := true, ReturnData := [], GasUsed := 2, Error := none } := by decide
  refine ⟨h, ?_⟩
  rintro ⟨r, hr, hs⟩
  rw [h] at hr
  injection hr with hr
  rw [← hr] at hs
  exact absurd hs (by decide)

/-- Claim C8, amended: for every bytecode, when the loop reaches a `JUMP` (or
a `JUMPI` with a non-zero condition) that pops a destination at or beyond the
end of the bytecode, the jump is committed without validation and the loop
ends gracefully: `Execute` returns `Success = true` with no error, the
`ReturnData` of the remaining stack and the gas of the instructions fetched. -/
theorem jump_out_of_range_stops {α : Type} (contract : Contract α) (input : List Byte)
    (vm : VM) (d : Nat) (rest : List Nat)
    (hlen : contract.Bytecode.length ≤ maxCode)
    (hreach : Reaches contract.Bytecode (startVM contract.Bytecode) vm)
    (hpc : vm.PC < contract.Bytecode.length) (hgas : 1 ≤ vm.Gas)
    (hjump : (contract.Bytecode[vm.PC]? = some JUMP ∧ vm.Stack = d :: rest) ∨
      (∃ c, c ≠ 0 ∧ contract.Bytecode[vm.PC]? = some JUMPI ∧ vm.Stack = c :: d :: rest))
    (hout : contract.Bytecode.length ≤ d) :
    Execute contract input =
      .done { Success := true, ReturnData := returnDataOf rest,
              GasUsed := 100000 - (vm.Gas - 1), Error := none } := by
  have hstep : ∃ op, op ≠ STOP ∧ StepOK contract.Bytecode vm op
      { vm with Stack := rest, PC := d, Gas := vm.Gas - 1 } := by
    rcases hjump with ⟨hop, hst⟩ | ⟨c, hc, hop, hst⟩
    · refine ⟨JUMP, by decide, hpc, hgas, hop, by rw [immWidth_JUMP]; omega, ?_⟩
      have := ExecuteOpcode_JUMP
        { vm with Gas := vm.Gas - 1, PC := vm.PC + 1 + immWidth JUMP } d rest
        ((contract.Bytecode.drop (vm.PC + 1)).take (immWidth JUMP))
      rw [← hst] at this
      exact this
    · refine ⟨JUMPI, by decide, hpc, hgas, hop, by rw [immWidth_JUMPI]; omega, ?_⟩
      have := ExecuteOpcode_JUMPI
        { vm with Gas := vm.Gas - 1, PC := vm.PC + 1 + immWidth JUMPI } c d rest
        ((contract.Bytecode.drop (vm.PC + 1)).take (immWidth JUMPI))
      rw [← hst, if_pos hc] at this
      exact this
  obtain ⟨op, hne, hs⟩ := hstep
  have hh : Halts contract.Bytecode (startVM contract.Bytecode)
      { vm with Stack := rest, PC := d, Gas := vm.Gas - 1 } :=
    Halts_of_Reaches hreach (Halts.step _ _ _ op hs hne (Halts.exhausted _ hout))
  exact (Execute_of_Halts contract input _ hlen hh).1

/-- Witness of C8 (amended): in `PUSH1 0xFF, JUMP` the loop reaches the `JUMP`
at counter 2 with 255 on the stack. -/
theorem jump_out_of_range_stops_witness :
    Reaches [0x60, 0xFF, 0x56] (startVM [0x60, 0xFF, 0x56])
        { startVM [0x60, 0xFF, 0x56] with Stack := [255], PC := 2, Gas := 99999 } ∧
      Execute (mkContract [0x60, 0xFF, 0x56]) [] =
        .done { Success := true, ReturnData := returnDataOf [],
                GasUsed := 100000 - (99999 - 1), Error := none } := by
  have hr : Reaches [0x60, 0xFF, 0x56] (startVM [0x60, 0xFF, 0x56])
      { startVM [0x60, 0xFF, 0x56] with Stack := [255], PC := 2, Gas := 99999 } :=
    Reaches.step _ { startVM [0x60, 0xFF, 0x56] with Stack := [255], PC := 2, Gas := 99999 }
      _ PUSH1 ⟨by decide, by decide, rfl, by decide, rfl⟩ (by decide) (Reaches.refl _)
  exact ⟨hr, jump_out_of_range_stops (mkContract [0x60, 0xFF, 0x56]) [] _ 255 []
    (by decide) hr (by decide) (by decide) (Or.inl ⟨rfl, rfl⟩) (by decide)⟩

/-- Claim C9: on every machine state whose stack holds the condition `c` on
top and the destination `d` beneath it, `JUMPI` returns no error and removes
both (condition popped first, destination second); the program counter becomes
`d` when `c` is not 0 and is unchanged when `c = 0`; the rest of the stack,
gas, memory and storage are unchanged. -/
theorem jumpi_pops_condition_then_destination (vm : VM) (c d : Nat) (rest : List Nat)
    (operand : List Byte) :
    ExecuteOpcode { vm with Stack := c :: d :: rest } JUMPI operand =
      ({ vm with Stack := rest, PC := if c ≠ 0 then d else vm.PC }, none) := by
  rw [ExecuteOpcode_JUMPI]
  split <;> rfl

/-- Claim C10: for every bytecode that loads (at most 4194304 bytes), `Execute`
returns, and the `GasUsed` it reports equals the number of opcodes fetched by
its loop: one unit per fetched opcode, whatever the opcode and the width of
its immediate, the final STOP and a faulting instruction included. -/
theorem gasUsed_eq_fetched {α : Type} (contract : Contract α) (input : List Byte)
    (h : contract.Bytecode.length ≤ maxCode) :
    ∃ r n, ExecuteTrace contract input = .done (r, n) ∧ Execute contract input = .done r ∧
      r.GasUsed = n ∧ n ≤ 100000 := by
  obtain ⟨e, _, hp, ht⟩ := ExecuteTrace_eq contract input h
  have h1 : e.vm.Gas + e.fetched = 100000 + 0 := hp.1
  refine ⟨_, _, ht, Execute_eq _ _ _ _ ht, ?_, by omega⟩
  have h2 : (resultOf 100000 e).GasUsed = (100000 + W - e.vm.Gas) % W := by
    unfold resultOf; split <;> rfl
  rw [h2]; unfold W; omega

/-- Witness of C10: `PUSH1 1, PUSH1 2, ADD, STOP` fetches 4 opcodes and reports
`GasUsed = 4`; `PUSH1 1, 0xEE` fetches 2 and reports `GasUsed = 2`. -/
theorem gasUsed_eq_fetched_witness :
    ExecuteTrace (mkContract [0x60, 0x01, 0x60, 0x02, 0x01, 0x00]) [] =
        .done ({ Success := true, ReturnData := [0, 0, 0, 0, 0, 0, 0, 3], GasUsed := 4,
                 Error := none }, 4) ∧
      ExecuteTrace (mkContract [0x60, 0x01, 0xEE]) [] =
        .done ({ Success := false, ReturnData := [], GasUsed := 2,
                 Error := some (.atPC 2 (.unknownOpcode 0xEE)) }, 2) ∧
      (mkContract [0x60, 0x01, 0xEE]).Bytecode.length ≤ maxCode ∧
      ∃ r n, ExecuteTrace (mkContract [0x60, 0x01, 0xEE]) [] = .done (r, n) ∧
        Execute (mkContract [0x60, 0x01, 0xEE]) [] = .done r ∧ r.GasUsed = n ∧ n ≤ 100000 :=
  ⟨by decide, by decide, by decide,
    gasUsed_eq_fetched (mkContract [0x60, 0x01, 0xEE]) [] (by decide)⟩


/-! ## More about the loop of Execute -/

/-- One iteration of the loop, when gas is left and the immediate of the
fetched opcode lies inside the bytecode: the opcode is dispatched on the state
with one unit of gas charged, the counter advanced past opcode and immediate,
and exactly the bytes of the immediate as operand. -/
theorem execLoop_iter {code : List Byte} (hlen : code.length ≤ maxCode) {vm : VM} {op : OpCode}
    (hpc : vm.PC < code.length) (hgas : 1 ≤ vm.Gas) (hop : code[vm.PC]? = some op)
    (himm : vm.PC + 1 + immWidth op ≤ code.length) (k n : Nat) :
    execLoop (k + 1) vm code n =
      match ExecuteOpcode { vm with Gas := vm.Gas - 1, PC := vm.PC + 1 + immWidth op } op
          ((code.drop (vm.PC + 1)).take (immWidth op)) with
      | (vm4, some err) =>
        Run.done (LoopEnd.mk vm4 (some (.atPC ((vm4.PC + W - 1) % W) err)) (n + 1))
      | (vm4, none) =>
        if op = STOP then Run.done (LoopEnd.mk vm4 none (n + 1))
        else execLoop k vm4 code (n + 1) := by
  have hW : (vm.PC + 1) % W = vm.PC + 1 := by
    apply Nat.mod_eq_of_lt; unfold W; unfold maxCode at hlen; omega
  have hp1 : PUSH1.val = 0x60 := rfl
  have hp2 : PUSH32.val = 0x7f := rfl
  rw [execLoop, if_pos hpc]
  simp only [ConsumeGas, if_neg (by omega : ¬ vm.Gas < 1)]
  rw [hop]
  simp only
  by_cases hpush : PUSH1.val ≤ op.val ∧ op.val ≤ PUSH32.val
  · rw [if_pos hpush]
    have hw : immWidth op = op.val - 0x60 + 1 := by
      unfold immWidth; rw [if_pos ⟨by omega, by omega⟩]
    have hsz : (op.val + 256 - PUSH1.val + 1) % 256 = immWidth op := by
      rw [hw, hp1]; omega
    rw [hsz, hW]
    have hW2 : (vm.PC + 1 + immWidth op) % W = vm.PC + 1 + immWidth op := by
      apply Nat.mod_eq_of_lt; unfold W; unfold maxCode at hlen; omega
    rw [hW2, if_neg (by omega)]
    have hsl : sliceOf code (vm.PC + 1) (vm.PC + 1 + immWidth op) =
        some ((code.drop (vm.PC + 1)).take (immWidth op)) := by
      unfold sliceOf
      rw [if_pos ⟨by omega, by omega⟩]
      simp
    rw [hsl]
  · rw [if_neg hpush]
    have hw : immWidth op = 0 := by
      unfold immWidth; rw [if_neg (by omega)]
    rw [hw]
    simp only [Nat.add_zero, List.take_zero]
    rw [hW]

/-- One iteration of the loop with no gas left: the loop returns out of gas
and nothing is fetched. -/
theorem execLoop_out_of_gas {code : List Byte} {vm : VM} (hpc : vm.PC < code.length)
    (hgas : vm.Gas = 0) (k n : Nat) :
    execLoop (k + 1) vm code n = .done ⟨vm, some (.gas .outOfGas), n⟩ := by
  rw [execLoop, if_pos hpc]
  simp only [ConsumeGas, if_pos (by omega : vm.Gas < 1)]

/-- One iteration of the loop on a PUSH whose immediate runs past the end of
the bytecode: the loop returns unexpected end of bytecode, with the opcode
fetched and paid and the stack as it was. -/
theorem execLoop_truncated {code : List Byte} (hlen : code.length ≤ maxCode) {vm : VM}
    {op : OpCode} (hpc : vm.PC < code.length) (hgas : 1 ≤ vm.Gas)
    (hop : code[vm.PC]? = some op) (hpush : 0x60 ≤ op.val ∧ op.val ≤ 0x7f)
    (hshort : code.length < vm.PC + 1 + (op.val - 0x60 + 1)) (k n : Nat) :
    execLoop (k + 1) vm code n =
      .done ⟨{ vm with Gas := vm.Gas - 1, PC := vm.PC + 1 }, some .unexpectedEnd, n + 1⟩ := by
  have hW : (vm.PC + 1) % W = vm.PC + 1 := by
    apply Nat.mod_eq_of_lt; unfold W; unfold maxCode at hlen; omega
  have hp1 : PUSH1.val = 0x60 := rfl
  have hp2 : PUSH32.val = 0x7f := rfl
  rw [execLoop, if_pos hpc]
  simp only [ConsumeGas, if_neg (by omega : ¬ vm.Gas < 1)]
  rw [hop]
  simp only
  rw [if_pos (by rw [hp1, hp2]; exact hpush)]
  have hsz : (op.val + 256 - PUSH1.val + 1) % 256 = op.val - 0x60 + 1 := by
    rw [hp1]; omega
  rw [hsz, hW]
  have hW2 : (vm.PC + 1 + (op.val - 0x60 + 1)) % W = vm.PC + 1 + (op.val - 0x60 + 1) := by
    apply Nat.mod_eq_of_lt; unfold W; unfold maxCode at hlen; omega
  rw [hW2, if_pos (by omega)]

theorem execLoop_of_Reaches {code : List Byte} (hlen : code.length ≤ maxCode) {vm vm1 : VM}
    (h : Reaches code vm vm1) :
    vm1.Gas ≤ vm.Gas ∧ ∀ fuel n, vm.Gas < fuel →
      execLoop fuel vm code n =
        execLoop (fuel - (vm.Gas - vm1.Gas)) vm1 code (n + (vm.Gas - vm1.Gas)) := by
  induction h with
  | refl vm =>
    refine ⟨le_refl _, ?_⟩
    intro fuel n _
    simp
  | step vm vm1 vm2 op h hne hrest ih =>
    obtain ⟨hg1, hg2⟩ := StepOK_gas h
    obtain ⟨ih1, ih2⟩ := ih
    refine ⟨by omega, ?_⟩
    intro fuel n hf
    cases fuel with
    | zero => omega
    | succ k =>
      rw [execLoop_step hlen h, if_neg hne, ih2 k (n + 1) (by omega)]
      have h1 : k - (vm1.Gas - vm2.Gas) = k + 1 - (vm.Gas - vm2.Gas) := by omega
      have h2 : n + 1 + (vm1.Gas - vm2.Gas) = n + (vm.Gas - vm2.Gas) := by omega
      rw [h1, h2]

/-- The result of `Execute`, read off the loop continued from a state the
loop reaches. -/
theorem ExecuteTrace_of_Reaches {α : Type} (contract : Contract α) (input : List Byte)
    (hlen : contract.Bytecode.length ≤ maxCode) {vm : VM}
    (hreach : Reaches contract.Bytecode (startVM contract.Bytecode) vm) (e : LoopEnd)
    (he : execLoop (vm.Gas + 1) vm contract.Bytecode (100000 - vm.Gas) = .done e) :
    vm.Gas ≤ 100000 ∧ ExecuteTrace contract input = .done (resultOf 100000 e, e.fetched) := by
  obtain ⟨hg, hl⟩ := execLoop_of_Reaches hlen hreach
  rw [startVM_Gas] at hg
  refine ⟨hg, ?_⟩
  obtain ⟨e0, he0, _, ht⟩ := ExecuteTrace_eq contract input hlen
  have h1 := hl 100001 0 (by rw [startVM_Gas]; omega)
  rw [startVM_Gas] at h1
  have h2 : 100001 - (100000 - vm.Gas) = vm.Gas + 1 := by omega
  rw [h2, Nat.zero_add, he] at h1
  rw [h1] at he0
  injection he0 with he0
  rw [ht, he0]

theorem Store_too_long (code : List Byte) (h1 : maxCode < code.length) (h2 : code.length < W) :
    Store NewVM 0 code = .done (NewVM, some .memoryOutOfBounds) := by
  have hs : NewVM.Memory.size = maxCode := rfl
  have hW : (0 + code.length) % W = code.length := by
    rw [Nat.zero_add]; exact Nat.mod_eq_of_lt h2
  unfold Store
  rw [hW, hs, if_pos h1]

theorem ExecuteTrace_too_long {α : Type} (contract : Contract α) (input : List Byte)
    (h1 : maxCode < contract.Bytecode.length) (h2 : contract.Bytecode.length < W) :
    ExecuteTrace contract input =
      .done ({ Success := false, ReturnData := [], GasUsed := 0,
               Error := some (.loadFailed .memoryOutOfBounds) }, 0) := by
  unfold ExecuteTrace
  rw [Store_too_long _ h1 h2]

theorem ExecuteTrace_returns {α : Type} (contract : Contract α) (input : List Byte)
    (h : contract.Bytecode.length < 2 ^ 63) :
    ∃ r n, ExecuteTrace contract input = .done (r, n) ∧ Execute contract input = .done r ∧
      n ≤ 100000 ∧ r.GasUsed = n ∧ (r.Success = false ↔ r.Error ≠ none) := by
  by_cases hlen : contract.Bytecode.length ≤ maxCode
  · obtain ⟨e, _, hp, ht⟩ := ExecuteTrace_eq contract input hlen
    have h1 : e.vm.Gas + e.fetched = 100000 + 0 := hp.1
    refine ⟨_, _, ht, Execute_eq _ _ _ _ ht, by omega, ?_, ?_⟩
    · have h2 : (resultOf 100000 e).GasUsed = (100000 + W - e.vm.Gas) % W := by
        unfold resultOf; split <;> rfl
      rw [h2]; unfold W; omega
    · unfold resultOf
      split <;> simp
  · have ht := ExecuteTrace_too_long contract input (by omega) (by unfold W; omega)
    exact ⟨_, _, ht, Execute_eq _ _ _ _ ht, by omega, rfl, by simp⟩

/-- The result of `Execute` when its loop, continued from a reached state,
returns with an error after fetching `j` more opcodes. -/
theorem ExecuteTrace_fails_of_Reaches {α : Type} (contract : Contract α) (input : List Byte)
    (hlen : contract.Bytecode.length ≤ maxCode) {vm : VM}
    (hreach : Reaches contract.Bytecode (startVM contract.Bytecode) vm)
    (vmE : VM) (err : ExecError) (j : Nat) (hj : j ≤ vm.Gas) (hE : vmE.Gas = vm.Gas - j)
    (he : ∀ k n, execLoop (k + 1) vm contract.Bytecode n = .done ⟨vmE, some err, n + j⟩) :
    ExecuteTrace contract input =
      .done ({ Success := false, ReturnData := [], GasUsed := 100000 - (vm.Gas - j),
               Error := some err }, 100000 - vm.Gas + j) := by
  obtain ⟨hg, ht⟩ := ExecuteTrace_of_Reaches contract input hlen hreach _
    (he vm.Gas (100000 - vm.Gas))
  rw [ht]
  have h1 : (100000 + W - vmE.Gas) % W = 100000 - (vm.Gas - j) := by
    rw [hE]; unfold W; omega
  simp only [resultOf, h1]

theorem Reaches_trans {code : List Byte} {a b c : VM} (h : Reaches code a b)
    (hb : Reaches code b c) : Reaches code a c := by
  induction h with
  | refl vm => exact hb
  | step vm vm1 vm2 op hs hne _ ih => exact Reaches.step vm vm1 c op hs hne (ih hb)

theorem endlessLoop_round (g : Nat) :
    Reaches endlessLoop { startVM endlessLoop with Gas := g + 2 }
      { startVM endlessLoop with Gas := g } := by
  refine Reaches.step _ { startVM endlessLoop with Stack := [0], PC := 2, Gas := g + 1 } _ PUSH1
    ⟨Nat.le_of_ble_eq_true rfl, Nat.le_add_left 1 (g + 1), rfl, Nat.le_of_ble_eq_true rfl,
      ExecuteOpcode_PUSH1_byte _ 0 (Nat.le_of_ble_eq_true rfl)⟩ (by decide) ?_
  exact Reaches.step _ { startVM endlessLoop with Gas := g } _ JUMP
    ⟨Nat.le_of_ble_eq_true rfl, Nat.le_add_left 1 g, rfl, Nat.le_of_ble_eq_true rfl, rfl⟩
    (by decide) (Reaches.refl _)

theorem endlessLoop_rounds (k : Nat) : ∀ g,
    Reaches endlessLoop { startVM endlessLoop with Gas := g + 2 * k }
      { startVM endlessLoop with Gas := g } := by
  induction k with
  | zero => intro g; exact Reaches.refl _
  | succ k ih =>
    intro g
    have h1 : g + 2 * (k + 1) = (g + 2 * k) + 2 := by omega
    rw [h1]
    exact Reaches_trans (endlessLoop_round (g + 2 * k)) (ih g)

theorem endlessLoop_exhausts :
    Reaches endlessLoop (startVM endlessLoop) { startVM endlessLoop with Gas := 0 } :=
  endlessLoop_rounds 50000 0

/-! ## Properties of the virtual machine, continued -/

/-- Claim C11: `Execute` terminates on every bytecode, with at most 100000
opcodes fetched by its loop; and a program whose loop has fetched 100000
opcodes (no gas left) without halting returns `Success = false` with the
error out of gas and `GasUsed = 100000`. -/
theorem execute_terminates_within_gas {α : Type} (contract : Contract α) (input : List Byte)
    (h : contract.Bytecode.length < 2 ^ 63) :
    (∃ r n, ExecuteTrace contract input = .done (r, n) ∧ Execute contract input = .done r ∧
        n ≤ 100000) ∧
      ∀ vm, contract.Bytecode.length ≤ maxCode →
        Reaches contract.Bytecode (startVM contract.Bytecode) vm →
        vm.Gas = 0 → vm.PC < contract.Bytecode.length →
        ExecuteTrace contract input =
            .done ({ Success := false, ReturnData := [], GasUsed := 100000,
                     Error := some (.gas .outOfGas) }, 100000) ∧
          Execute contract input =
            .done { Success := false, ReturnData := [], GasUsed := 100000,
                    Error := some (.gas .outOfGas) } := by
  constructor
  · obtain ⟨r, n, h1, h2, h3, _⟩ := ExecuteTrace_returns contract input h
    exact ⟨r, n, h1, h2, h3⟩
  · intro vm hlen hreach hgas hpc
    have h1 := ExecuteTrace_fails_of_Reaches contract input hlen hreach vm (.gas .outOfGas) 0
      (Nat.zero_le _) rfl (fun k n => execLoop_out_of_gas hpc hgas k n)
    rw [hgas] at h1
    exact ⟨h1, Execute_eq _ _ _ _ h1⟩

/-- Witness of C11: the endless loop `PUSH1 0x00, JUMP` fetches 100000 opcodes
and then fails with out of gas and `GasUsed = 100000`. -/
theorem execute_terminates_within_gas_witness :
    (mkContract [0x60, 0x00, 0x56]).Bytecode.length < 2 ^ 63 ∧
      Reaches [0x60, 0x00, 0x56] (startVM [0x60, 0x00, 0x56])
        { startVM [0x60, 0x00, 0x56] with Gas := 0 } ∧
      Execute (mkContract [0x60, 0x00, 0x56]) [] =
        .done { Success := false, ReturnData := [], GasUsed := 100000,
                Error := some (.gas .outOfGas) } :=
  ⟨by decide, endlessLoop_exhausts,
    ((execute_terminates_within_gas (mkContract [0x60, 0x00, 0x56]) [] (by decide)).2 _
      (by decide) endlessLoop_exhausts rfl (by decide)).2⟩

/-- Claim C12: for every opcode byte that is not STOP, ADD, MUL, SUB, DIV, POP,
SLOAD, SSTORE, JUMP, JUMPI or one of 0x60..0x7f, `ExecuteOpcode` returns the
unknown-opcode error naming that byte and leaves the machine (stack, storage,
program counter, gas) unchanged; and `Execute` on a bytecode whose loop
reaches such a byte returns `Success = false` with that error. -/
theorem unknown_opcode_fails (op : OpCode)
    (hop : op ∉ [STOP, ADD, MUL, SUB, DIV, POP, SLOAD, SSTORE, JUMP, JUMPI])
    (hpush : ¬ (0x60 ≤ op.val ∧ op.val ≤ 0x7f)) :
    (∀ vm operand, ExecuteOpcode vm op operand = (vm, some (.unknownOpcode op.val))) ∧
      ∀ {α : Type} (contract : Contract α) (input : List Byte) (vm : VM),
        contract.Bytecode.length ≤ maxCode →
        Reaches contract.Bytecode (startVM contract.Bytecode) vm →
        vm.PC < contract.Bytecode.length →
        contract.Bytecode[vm.PC]? = some op →
        ∃ r, Execute contract input = .done r ∧ r.Success = false ∧
          (1 ≤ vm.Gas →
            r = { Success := false, ReturnData := [], GasUsed := 100000 - (vm.Gas - 1),
                  Error := some (.atPC vm.PC (.unknownOpcode op.val)) }) := by
  have hk : op ∉ knownOpcodes := by
    simp only [List.mem_cons, List.mem_singleton, List.mem_nil_iff, or_false, not_or] at hop
    obtain ⟨h1, h2, h3, h4, h5, h6, h7, h8, h9, h10⟩ := hop
    have hp1 : op ≠ PUSH1 := by
      rintro rfl; exact hpush ⟨by decide, by decide⟩
    have hp2 : op ≠ PUSH32 := by
      rintro rfl; exact hpush ⟨by decide, by decide⟩
    simp only [knownOpcodes, List.mem_cons, List.mem_singleton, List.mem_nil_iff, or_false,
      not_or]
    exact ⟨hp1, hp2, h6, h2, h4, h3, h5, h8, h7, h9, h10, h1⟩
  refine ⟨fun vm operand => ExecuteOpcode_unknown vm op operand hk, ?_⟩
  intro α contract input vm hlen hreach hpc hfetch
  by_cases hgas : 1 ≤ vm.Gas
  swap
  · have h0 : vm.Gas = 0 := by omega
    have ht := ExecuteTrace_fails_of_Reaches contract input hlen hreach vm (.gas .outOfGas) 0
      (Nat.zero_le _) rfl (fun k n => execLoop_out_of_gas hpc h0 k n)
    exact ⟨_, Execute_eq _ _ _ _ ht, rfl, fun h1 => absurd h1 hgas⟩
  have hw : immWidth op = 0 := by
    unfold immWidth; rw [if_neg hpush]
  have hiter : ∀ k n, execLoop (k + 1) vm contract.Bytecode n =
      .done ⟨{ vm with Gas := vm.Gas - 1, PC := vm.PC + 1 },
        some (.atPC vm.PC (.unknownOpcode op.val)), n + 1⟩ := by
    intro k n
    rw [execLoop_iter hlen hpc hgas hfetch (by rw [hw]; omega) k n, hw,
      ExecuteOpcode_unknown _ op _ hk]
    simp only [Nat.add_zero]
    have hpcW2 : (vm.PC + 1 + W - 1) % W = vm.PC := by
      unfold W; unfold maxCode at hlen; omega
    rw [hpcW2]
  have ht := ExecuteTrace_fails_of_Reaches contract input hlen hreach _ _ 1 hgas rfl hiter
  exact ⟨_, Execute_eq _ _ _ _ ht, rfl, fun _ => rfl⟩

/-- Witness of C12: the byte 0xEE after `PUSH1 0x01`. -/
theorem unknown_opcode_fails_witness :
    ExecuteOpcode NewVM 0xEE [] = (NewVM, some (.unknownOpcode 0xEE)) ∧
      Execute (mkContract [0x60, 0x01, 0xEE]) [] =
        .done { Success := false, ReturnData := [], GasUsed := 100000 - (99999 - 1),
                Error := some (.atPC 2 (.unknownOpcode 0xEE)) } := by
  have h := unknown_opcode_fails 0xEE (by decide) (by decide)
  have hr : Reaches [0x60, 0x01, 0xEE] (startVM [0x60, 0x01, 0xEE])
      { startVM [0x60, 0x01, 0xEE] with Stack := [1], PC := 2, Gas := 99999 } :=
    Reaches.step _ { startVM [0x60, 0x01, 0xEE] with Stack := [1], PC := 2, Gas := 99999 }
      _ PUSH1 ⟨by decide, by decide, rfl, by decide, rfl⟩ (by decide) (Reaches.refl _)
  obtain ⟨r, h1, _, h3⟩ := h.2 (mkContract [0x60, 0x01, 0xEE]) [] _ (by decide) hr (by decide)
    rfl
  rw [h3 (by decide)] at h1
  exact ⟨h.1 NewVM [], h1⟩

/-- Claim C13: when the loop of `Execute` fetches a PUSHn opcode
(`n = opcode - 0x60 + 1`) followed by fewer than `n` bytes, the loop returns
unexpected end of bytecode with the stack as it was (nothing is pushed, no
byte past the end is read) and `Execute` returns `Success = false` with that
error; when at least `n` bytes remain, the opcode is dispatched with exactly
those `n` bytes as operand and the program counter advanced past them. -/
theorem push_immediate_bounds {α : Type} (contract : Contract α) (input : List Byte)
    (vm : VM) (op : OpCode)
    (hlen : contract.Bytecode.length ≤ maxCode)
    (hreach : Reaches contract.Bytecode (startVM contract.Bytecode) vm)
    (hpc : vm.PC < contract.Bytecode.length) (hgas : 1 ≤ vm.Gas)
    (hfetch : contract.Bytecode[vm.PC]? = some op)
    (hpush : 0x60 ≤ op.val ∧ op.val ≤ 0x7f) :
    (contract.Bytecode.length < vm.PC + 1 + (op.val - 0x60 + 1) →
        (∀ k n, execLoop (k + 1) vm contract.Bytecode n =
          .done ⟨{ vm with Gas := vm.Gas - 1, PC := vm.PC + 1 }, some .unexpectedEnd, n + 1⟩) ∧
        Execute contract input =
          .done { Success := false, ReturnData := [], GasUsed := 100000 - (vm.Gas - 1),
                  Error := some .unexpectedEnd }) ∧
      (vm.PC + 1 + (op.val - 0x60 + 1) ≤ contract.Bytecode.length →
        ∀ k n, execLoop (k + 1) vm contract.Bytecode n =
          match ExecuteOpcode
              { vm with Gas := vm.Gas - 1, PC := vm.PC + 1 + (op.val - 0x60 + 1) } op
              ((contract.Bytecode.drop (vm.PC + 1)).take (op.val - 0x60 + 1)) with
          | (vm4, some err) =>
            Run.done (LoopEnd.mk vm4 (some (.atPC ((vm4.PC + W - 1) % W) err)) (n + 1))
          | (vm4, none) => execLoop k vm4 contract.Bytecode (n + 1)) := by
  have hw : immWidth op = op.val - 0x60 + 1 := by
    unfold immWidth; rw [if_pos hpush]
  constructor
  · intro hshort
    have hiter := execLoop_truncated hlen hpc hgas hfetch hpush hshort
    have ht := ExecuteTrace_fails_of_Reaches contract input hlen hreach _ _ 1 hgas rfl hiter
    exact ⟨hiter, Execute_eq _ _ _ _ ht⟩
  · intro hfit k n
    have hne : op ≠ STOP := by
      rintro rfl
      exact absurd hpush.1 (by decide)
    rw [execLoop_iter hlen hpc hgas hfetch (by rw [hw]; exact hfit) k n, hw]
    rcases ExecuteOpcode { vm with Gas := vm.Gas - 1, PC := vm.PC + 1 + (op.val - 0x60 + 1) } op
      ((contract.Bytecode.drop (vm.PC + 1)).take (op.val - 0x60 + 1)) with ⟨vm4, _ | err⟩
    · show (if op = STOP then _ else _) = _
      rw [if_neg hne]
    · rfl

/-- Witness of C13: the one-byte bytecode `PUSH1` fails with unexpected end of
bytecode and `GasUsed = 1`; in `PUSH1 0x07, STOP` the byte 0x07 is the operand
and the loop goes on at counter 2 with 7 on the stack. -/
theorem push_immediate_bounds_witness :
    Execute (mkContract [0x60]) [] =
        .done { Success := false, ReturnData := [], GasUsed := 100000 - (100000 - 1),
                Error := some .unexpectedEnd } ∧
      ∀ k n, execLoop (k + 1) (startVM [0x60, 0x07, 0x00]) [0x60, 0x07, 0x00] n =
        execLoop k { startVM [0x60, 0x07, 0x00] with Stack := [7], PC := 2, Gas := 99999 }
          [0x60, 0x07, 0x00] (n + 1) :=
  ⟨((push_immediate_bounds (mkContract [0x60]) [] (startVM [0x60]) 0x60 (by decide)
      (Reaches.refl _) (by decide) (by decide) rfl (by decide)).1 (by decide)).2,
   (push_immediate_bounds (mkContract [0x60, 0x07, 0x00]) [] (startVM [0x60, 0x07, 0x00]) 0x60
      (by decide) (Reaches.refl _) (by decide) (by decide) rfl (by decide)).2 (by decide)⟩

/-- Claim C14: for every bytecode (of a length a Go slice can have) and every
input, `Execute` returns an `ExecutionResult` without panicking, and in that
result `Success` is false exactly when `Error` is not nil. -/
theorem execute_never_panics {α : Type} (contract : Contract α) (input : List Byte)
    (h : contract.Bytecode.length < 2 ^ 63) :
    ∃ r, Execute contract input = .done r ∧ (r.Success = false ↔ r.Error ≠ none) := by
  obtain ⟨r, _, _, h2, _, _, h5⟩ := ExecuteTrace_returns contract input h
  exact ⟨r, h2, h5⟩

/-- Witness of C14: a jump to the 64-bit destination `0xfedcba9876543210`, far
outside the bytecode: `PUSH32` of 32 bytes ending in that value, then `JUMP`. -/
theorem execute_never_panics_witness :
    ∃ r, Execute (mkContract [0x7f, 0x01, 0x02, 0x03, 0x04, 0x05, 0x06, 0x07, 0x08,
        0x09, 0x0a, 0x0b, 0x0c, 0x0d, 0x0e, 0x0f, 0x10, 0x11, 0x12, 0x13, 0x14, 0x15, 0x16,
        0x17, 0x18, 0xfe, 0xdc, 0xba, 0x98, 0x76, 0x54, 0x32, 0x10, 0x56]) [] = .done r ∧
      (r.Success = false ↔ r.Error ≠ none) :=
  execute_never_panics _ [] (by decide)

theorem popN_succ_last (n : Nat) : ∀ vm,
    popN vm (n + 1) =
      ((Pop (popN vm n).1).1,
        (popN vm n).2 ++ [((Pop (popN vm n).1).2.1, (Pop (popN vm n).1).2.2)]) := by
  induction n with
  | zero => intro vm; rfl
  | succ k ih =>
    intro vm
    have h := ih (Pop vm).1
    show ((popN (Pop vm).1 (k + 1)).1,
      ((Pop vm).2.1, (Pop vm).2.2) :: (popN (Pop vm).1 (k + 1)).2) = _
    rw [h]
    rfl

theorem pushAll_popN (vs : List Nat) : ∀ vm, vm.Stack.length + vs.length ≤ 1024 →
    (pushAll vm vs).2 = List.replicate vs.length none ∧
      popN (pushAll vm vs).1 vs.length = (vm, vs.reverse.map (fun v => (v, none))) := by
  induction vs with
  | nil => intro vm _; exact ⟨rfl, rfl⟩
  | cons v vs ih =>
    intro vm h
    simp only [List.length_cons] at h
    have hp : Push vm v = ({ vm with Stack := v :: vm.Stack }, none) :=
      Push_ok vm v (by omega)
    obtain ⟨h1, h2⟩ := ih { vm with Stack := v :: vm.Stack }
      (by simp only [List.length_cons]; omega)
    have hpa : pushAll vm (v :: vs) =
        ((pushAll { vm with Stack := v :: vm.Stack } vs).1,
          none :: (pushAll { vm with Stack := v :: vm.Stack } vs).2) := by
      show ((pushAll (Push vm v).1 vs).1, (Push vm v).2 :: (pushAll (Push vm v).1 vs).2) = _
      rw [hp]
    constructor
    · rw [hpa, h1]; rfl
    · rw [hpa]
      simp only [List.length_cons]
      rw [popN_succ_last, h2]
      simp [Pop]

/-- Claim C15: the LIFO law. On a stack of length `m`, pushing `n` values with
`Push` when `m + n ≤ 1024` succeeds every time, and `n` calls of `Pop` then
return the values in the exact reverse order of insertion, each with no
error, and leave the machine, hence the stack, as it was before the pushes. -/
theorem lifo_law (vm : VM) (vs : List Nat) (h : vm.Stack.length + vs.length ≤ 1024) :
    (pushAll vm vs).2 = List.replicate vs.length none ∧
      popN (pushAll vm vs).1 vs.length = (vm, vs.reverse.map (fun v => (v, none))) :=
  pushAll_popN vs vm h

/-- Witness of C15: on the stack `[9]`, pushing 1, 2, 3 and popping three times
returns 3, 2, 1 and leaves `[9]`. -/
theorem lifo_law_witness :
    (pushAll { NewVM with Stack := [9] } [1, 2, 3]).2 = [none, none, none] ∧
      popN (pushAll { NewVM with Stack := [9] } [1, 2, 3]).1 3 =
        ({ NewVM with Stack := [9] }, [(3, none), (2, none), (1, none)]) :=
  lifo_law { NewVM with Stack := [9] } [1, 2, 3] (by decide)

/-- Claim C16: `Push` on a stack that holds 1024 values returns the stack
overflow error and leaves the machine unchanged, and succeeds on every shorter
stack, putting the value on top; `Pop` on an empty stack returns the stack
underflow error and leaves the machine unchanged, and on every non-empty
stack it succeeds, returning the top and removing it. -/
theorem push_pop_bounds (vm : VM) (v : Nat) :
    (vm.Stack.length = 1024 → Push vm v = (vm, some .stackOverflow)) ∧
      (vm.Stack.length < 1024 → Push vm v = ({ vm with Stack := v :: vm.Stack }, none)) ∧
      (vm.Stack = [] → Pop vm = (vm, 0, some .stackUnderflow)) ∧
      (∀ x rest, vm.Stack = x :: rest → Pop vm = ({ vm with Stack := rest }, x, none)) := by
  refine ⟨?_, Push_ok vm v, ?_, ?_⟩
  · intro h
    unfold Push
    rw [if_pos (by omega)]
  · intro h
    unfold Pop
    rw [h]
  · intro x rest h
    unfold Pop
    rw [h]

/-- Witness of C16: stacks of 1024 and of 1023 values for `Push`, the empty
stack and the stack `[5, 6]` (5 on top) for `Pop`. -/
theorem push_pop_bounds_witness :
    Push { NewVM with Stack := List.replicate 1024 0 } 5 =
        ({ NewVM with Stack := List.replicate 1024 0 }, some .stackOverflow) ∧
      Push { NewVM with Stack := List.replicate 1023 0 } 5 =
        ({ NewVM with Stack := 5 :: List.replicate 1023 0 }, none) ∧
      Pop NewVM = (NewVM, 0, some .stackUnderflow) ∧
      Pop { NewVM with Stack := [5, 6] } = ({ NewVM with Stack := [6] }, 5, none) :=
  ⟨(push_pop_bounds { NewVM with Stack := List.replicate 1024 0 } 5).1
      (List.length_replicate 1024 0),
   (push_pop_bounds { NewVM with Stack := List.replicate 1023 0 } 5).2.1
      ((List.length_replicate 1023 0).trans_lt (by decide)),
   (push_pop_bounds NewVM 5).2.2.1 rfl,
   (push_pop_bounds { NewVM with Stack := [5, 6] } 0).2.2.2 5 [6] rfl⟩

/-- Claim C17: for every gas value `g` and amount `n`, `ConsumeGas` returns the
out of gas error exactly when `n > g`, and then leaves the machine unchanged;
otherwise it returns no error and sets the gas to `g - n`, which is the exact
difference (new gas plus `n` is `g`) and agrees with the 64-bit subtraction,
so the gas never wraps below zero; and the gas never increases. -/
theorem consumeGas_checked (vm : VM) (n : Nat) :
    ((ConsumeGas vm n).2 = some .outOfGas ↔ vm.Gas < n) ∧
      ((ConsumeGas vm n).2 = none ↔ n ≤ vm.Gas) ∧
      (vm.Gas < n → (ConsumeGas vm n).1 = vm) ∧
      (n ≤ vm.Gas → (ConsumeGas vm n).1 = { vm with Gas := vm.Gas - n } ∧
        (ConsumeGas vm n).1.Gas + n = vm.Gas) ∧
      (ConsumeGas vm n).1.Gas ≤ vm.Gas ∧
      (vm.Gas < 2 ^ 64 → n ≤ vm.Gas →
        (ConsumeGas vm n).1.Gas = (vm.Gas + 2 ^ 64 - n) % 2 ^ 64) := by
  unfold ConsumeGas
  by_cases h : vm.Gas < n
  · rw [if_pos h]
    refine ⟨by simp [h], by simp; omega, fun _ => rfl, fun h2 => by omega, le_refl _,
      fun _ h2 => by omega⟩
  · rw [if_neg h]
    refine ⟨by simp [h], by simp; omega, fun h2 => absurd h2 h,
      fun _ => ⟨rfl, by simp only; omega⟩, by simp only; omega, fun h1 _ => by simp only; omega⟩

/-- Witness of C17: amount 5 with gas 3 is refused and the gas stays 3; amount 1
with gas 100000 leaves 99999. -/
theorem consumeGas_checked_witness :
    (ConsumeGas { NewVM with Gas := 3 } 5).1 = { NewVM with Gas := 3 } ∧
      (ConsumeGas { NewVM with Gas := 3 } 5).2 = some .outOfGas ∧
      (ConsumeGas NewVM 1).1 = { NewVM with Gas := 99999 } ∧
      (ConsumeGas NewVM 1).2 = none :=
  ⟨(consumeGas_checked { NewVM with Gas := 3 } 5).2.2.1 (by decide),
   (consumeGas_checked { NewVM with Gas := 3 } 5).1.2 (by decide),
   ((consumeGas_checked NewVM 1).2.2.2.1 (by decide)).1,
   (consumeGas_checked NewVM 1).2.1.2 (by decide)⟩

/-- Claim C18, at the failing input offset `2^64 - 1` with two bytes: the sum
`offset + len(data)` wraps around `2^64` to 1, the bound check passes, and
`Store` panics on the slice `vm.Memory[offset:]` instead of returning the
memory out of bounds error; `Load` with that offset and length 2 panics in the
same way. -/
theorem store_load_wrap_panics :
    Store NewVM (2 ^ 64 - 1) [1, 2] = .panic ∧ Load NewVM (2 ^ 64 - 1) 2 = .panic :=
  ⟨rfl, rfl⟩

/-- Claim C19: the result of `Execute` depends on the bytecode alone. For every
bytecode, every two ABI values and every two call inputs, the two calls return
the same result (`Success`, `ReturnData`, `GasUsed` and error); each call runs
its loop from the fresh state `startVM`, whose stack and storage are empty,
whose program counter is 0 and whose gas is 100000. -/
theorem execute_depends_on_bytecode_only {α β : Type} (code : List Byte) (abi1 : α) (abi2 : β)
    (input1 input2 : List Byte) :
    Execute { Bytecode := code, ABI := abi1 } input1 =
        Execute { Bytecode := code, ABI := abi2 } input2 ∧
      (startVM code).Stack = [] ∧ (∀ key, (startVM code).Storage key = none) ∧
      (startVM code).PC = 0 ∧ (startVM code).Gas = 100000 ∧
      (code.length ≤ maxCode →
        ∃ e, execLoop 100001 (startVM code) code 0 = .done e ∧
          Execute { Bytecode := code, ABI := abi1 } input1 = .done (resultOf 100000 e)) := by
  refine ⟨rfl, rfl, fun _ => rfl, rfl, rfl, ?_⟩
  intro hlen
  obtain ⟨e, he, _, ht⟩ := ExecuteTrace_eq { Bytecode := code, ABI := abi1 } input1 hlen
  exact ⟨e, he, Execute_eq _ _ _ _ ht⟩

/-- Claim C20, at the failing input of `TestVMExecution`: the source is parsed
and compiled without error, and then the method `(*VM).Execute` panics
(its body is `panic("unimplemented")`) for every machine and bytecode, so the
pipeline returns no value at all and never the expected 3. -/
theorem vm_execute_method_panics :
    TestVMExecution testSolidityCode = .panic ∧
      (∀ source, TestVMExecution source = .panic) ∧
      ∀ vm bytecode, VM.Execute vm bytecode = .panic :=
  ⟨rfl, fun _ => rfl, fun _ _ => rfl⟩

/-! ## Helper lemmas: stack bound, storage form, memory -/

theorem pushProgram_length (n : Nat) : (pushProgram n).length = 2 * n := by
  induction n with
  | zero => rfl
  | succ k ih => simp only [pushProgram, List.length_cons, ih]; omega

theorem pushProgram_fetch (k : Nat) : ∀ n, k < n →
    (pushProgram n)[2 * k]? = some 0x60 ∧
      ((pushProgram n).drop (2 * k + 1)).take 1 = [0x01] := by
  induction k with
  | zero =>
    intro n h
    cases n with
    | zero => omega
    | succ m => exact ⟨rfl, rfl⟩
  | succ k ih =>
    intro n h
    cases n with
    | zero => omega
    | succ m =>
      obtain ⟨h1, h2⟩ := ih m (by omega)
      have e1 : 2 * (k + 1) = 2 * k + 1 + 1 := by omega
      have e2 : 2 * (k + 1) + 1 = (2 * k + 1) + 1 + 1 := by omega
      constructor
      · rw [e1]
        simp only [pushProgram, List.getElem?_cons_succ]
        exact h1
      · rw [e2]
        simp only [pushProgram, List.drop_succ_cons]
        exact h2

theorem pushState_step (n k : Nat) (hk : k < n) (hcap : k < 1024) :
    StepOK (pushProgram n) (pushState n k) PUSH1 (pushState n (k + 1)) := by
  obtain ⟨h1, h2⟩ := pushProgram_fetch k n hk
  have hw : immWidth PUSH1 = 1 := rfl
  refine ⟨?_, ?_, h1, ?_, ?_⟩
  · show 2 * k < (pushProgram n).length
    rw [pushProgram_length]; omega
  · show 1 ≤ 100000 - k
    omega
  · show 2 * k + 1 + immWidth PUSH1 ≤ (pushProgram n).length
    rw [pushProgram_length, hw]; omega
  · show ExecuteOpcode _ PUSH1 (((pushProgram n).drop (2 * k + 1)).take (immWidth PUSH1)) = _
    rw [hw, h2]
    have h3 := ExecuteOpcode_PUSH1_byte
      { startVM (pushProgram n) with
        Stack := List.replicate k 1, PC := 2 * k + 1 + 1, Gas := 100000 - k - 1 } 0x01
      (by show (List.replicate k 1).length < 1024; rw [List.length_replicate]; exact hcap)
    refine h3.trans ?_
    unfold pushState
    have e1 : 2 * (k + 1) = 2 * k + 1 + 1 := by omega
    have e2 : 100000 - (k + 1) = 100000 - k - 1 := by omega
    rw [e1, e2]
    rfl

theorem pushState_reaches (n : Nat) : ∀ k, k ≤ n → k ≤ 1024 →
    Reaches (pushProgram n) (startVM (pushProgram n)) (pushState n k) := by
  intro k
  induction k with
  | zero => intro _ _; exact Reaches.refl _
  | succ k ih =>
    intro h1 h2
    exact Reaches_trans (ih (by omega) (by omega))
      (Reaches.step _ _ _ PUSH1 (pushState_step n k (by omega) (by omega)) (by decide)
        (Reaches.refl _))

theorem pushProgram_overflows :
    ExecuteTrace (mkContract (pushProgram 1025)) [] =
      .done ({ Success := false, ReturnData := [], GasUsed := 1025,
               Error := some (.atPC 2049 .stackOverflow) }, 1025) := by
  have hlen : (mkContract (pushProgram 1025)).Bytecode.length ≤ maxCode := by
    show (pushProgram 1025).length ≤ maxCode
    rw [pushProgram_length]; unfold maxCode; omega
  have hreach := pushState_reaches 1025 1024 (by omega) (by omega)
  obtain ⟨h1, h2⟩ := pushProgram_fetch 1024 1025 (by omega)
  have hpc : (pushState 1025 1024).PC < (pushProgram 1025).length := by
    show 2 * 1024 < (pushProgram 1025).length
    rw [pushProgram_length]; omega
  have hgas : 1 ≤ (pushState 1025 1024).Gas := by
    show 1 ≤ 100000 - 1024
    omega
  have himm : (pushState 1025 1024).PC + 1 + immWidth PUSH1 ≤ (pushProgram 1025).length := by
    show 2 * 1024 + 1 + 1 ≤ (pushProgram 1025).length
    rw [pushProgram_length]
  have hiter : ∀ k n, execLoop (k + 1) (pushState 1025 1024) (pushProgram 1025) n =
      .done ⟨{ pushState 1025 1024 with PC := 2050, Gas := 98975 },
        some (.atPC 2049 .stackOverflow), n + 1⟩ := by
    intro k n
    have hlen2 : (pushProgram 1025).length ≤ maxCode := hlen
    have h1p : (pushProgram 1025)[(pushState 1025 1024).PC]? = some PUSH1 := h1
    rw [execLoop_iter hlen2 hpc hgas h1p himm k n]
    have hop : ExecuteOpcode
        { pushState 1025 1024 with
          Gas := (pushState 1025 1024).Gas - 1,
          PC := (pushState 1025 1024).PC + 1 + immWidth PUSH1 } PUSH1
        (((pushProgram 1025).drop ((pushState 1025 1024).PC + 1)).take (immWidth PUSH1)) =
        ({ pushState 1025 1024 with PC := 2050, Gas := 98975 }, some .stackOverflow) := by
      rw [ExecuteOpcode_PUSH1]
      unfold Push
      rw [if_pos (by show (List.replicate 1024 1).length ≥ 1024; rw [List.length_replicate])]
      rfl
    rw [hop]
    rfl
  have ht := ExecuteTrace_fails_of_Reaches (mkContract (pushProgram 1025)) [] hlen hreach
    { pushState 1025 1024 with PC := 2050, Gas := 98975 } (.atPC 2049 .stackOverflow) 1
    hgas rfl hiter
  exact ht

theorem hexDigit_lower (d : Nat) (hd : d < 16) : isLowerHex (hexDigit d) := by
  unfold isLowerHex
  interval_cases d <;> decide

theorem hexDigit_ne_zero (d : Nat) (hd : d < 16) (h0 : d ≠ 0) : hexDigit d ≠ '0' := by
  interval_cases d <;> first | exact absurd rfl h0 | decide

theorem hexDigits_canonical (fuel : Nat) : ∀ n, n < 16 ^ fuel → 1 ≤ fuel →
    (∀ c ∈ hexDigits fuel n, isLowerHex c) ∧ hexDigits fuel n ≠ [] ∧
      (n ≠ 0 → (hexDigits fuel n).head? ≠ some '0') ∧
      (hexDigits fuel n).length ≤ fuel := by
  induction fuel with
  | zero => intro n _ h; omega
  | succ k ih =>
    intro n hn _
    unfold hexDigits
    split
    · next h =>
      refine ⟨?_, by simp, ?_, by simp⟩
      · intro c hc
        simp only [List.mem_singleton] at hc
        rw [hc]; exact hexDigit_lower n h
      · intro h0
        simp only [List.head?_cons, ne_eq, Option.some.injEq]
        exact hexDigit_ne_zero n h h0
    · next h =>
      have h1 : n / 16 < 16 ^ k := by
        rw [pow_succ] at hn; omega
      have hk : 1 ≤ k := by
        rcases Nat.eq_zero_or_pos k with h0 | h0
        · rw [h0] at h1; simp at h1; omega
        · exact h0
      have h2 : n / 16 ≠ 0 := by omega
      obtain ⟨i1, i2, i3, i4⟩ := ih (n / 16) h1 hk
      refine ⟨?_, by simp, ?_, ?_⟩
      · intro c hc
        rw [List.mem_append] at hc
        rcases hc with hc | hc
        · exact i1 c hc
        · simp only [List.mem_singleton] at hc
          rw [hc]; exact hexDigit_lower _ (by omega)
      · intro _
        rw [List.head?_append_of_ne_nil _ i2]
        exact i3 h2
      · simp only [List.length_append, List.length_singleton]
        omega

theorem fmtHex_canonical (key : Nat) (h : key < W) :
    (∀ c ∈ (fmtHex key).data, isLowerHex c) ∧ (fmtHex key).data ≠ [] ∧
      (key ≠ 0 → (fmtHex key).data.head? ≠ some '0') ∧ (fmtHex key).data.length ≤ 16 ∧
      parseHex (fmtHex key).data = key := by
  have hk : key < 16 ^ 16 := by unfold W at h; omega
  obtain ⟨h1, h2, h3, h4⟩ := hexDigits_canonical 16 key hk (by omega)
  exact ⟨h1, h2, h3, h4, parseHex_hexDigits 16 key hk⟩

theorem encodeValue_length (v : Nat) : (encodeValue v).length = 8 := by
  rw [encodeValue_eq]; rfl

theorem beValue_encodeValue (v : Nat) (h : v < W) : beValue (encodeValue v) = v := by
  rw [encodeValue_eq]; exact beValue_bytes v h

theorem StorageCanon_step (vm : VM) (op : OpCode) (operand : List Byte)
    (hs : ∀ x ∈ vm.Stack, x < W) (hc : StorageCanon vm.Storage) :
    (∀ x ∈ (ExecuteOpcode vm op operand).1.Stack, x < W) ∧
      StorageCanon (ExecuteOpcode vm op operand).1.Storage := by
  have hf := ExecuteOpcode_frame vm op operand
  refine ⟨hf.stackVal hs, ?_⟩
  rw [hf.storage]
  by_cases hop : op = SSTORE
  · rw [if_pos hop]
    rcases hst : vm.Stack with _ | ⟨value, _ | ⟨key, rest⟩⟩
    · exact hc
    · exact hc
    · have hv : value < W := hs value (by rw [hst]; simp)
      have hkey : key < W := hs key (by rw [hst]; simp)
      intro s bs h
      simp only at h
      by_cases hsk : s = fmtHex key
      · rw [if_pos hsk] at h
        injection h with h
        exact ⟨key, value, hkey, hv, hsk, h.symm⟩
      · rw [if_neg hsk] at h
        exact hc s bs h
  · rw [if_neg hop]
    exact hc

theorem StorageCanon_runOps (ops : List (OpCode × List Byte)) : ∀ vm,
    (∀ x ∈ vm.Stack, x < W) → StorageCanon vm.Storage →
    (∀ x ∈ (runOps vm ops).Stack, x < W) ∧ StorageCanon (runOps vm ops).Storage := by
  induction ops with
  | nil => intro vm h1 h2; exact ⟨h1, h2⟩
  | cons o ops ih =>
    intro vm h1 h2
    obtain ⟨h3, h4⟩ := StorageCanon_step vm o.1 o.2 h1 h2
    exact ih _ h3 h4

theorem lastWrite_mem (ws : List (Nat × Nat)) (key v : Nat) (h : (key, v) ∈ ws) :
    (key, lastWrite ws key) ∈ ws := by
  unfold lastWrite
  cases hf : ws.reverse.find? (fun w => decide (w.1 = key)) with
  | none =>
    have h0 := List.find?_eq_none.mp hf (key, v) (List.mem_reverse.mpr h)
    simp at h0
  | some w =>
    have h1 := List.find?_some hf
    have h2 := List.mem_reverse.mp (List.mem_of_find?_eq_some hf)
    have h3 : w.1 = key := of_decide_eq_true h1
    show (key, w.2) ∈ ws
    rw [← h3]; exact h2

theorem StorageOfWrites_step (vm : VM) (ws : List (Nat × Nat)) (o : OpCode × List Byte)
    (hs : ∀ x ∈ vm.Stack, x < W) (h : StorageOfWrites vm.Storage ws) :
    StorageOfWrites (ExecuteOpcode vm o.1 o.2).1.Storage
      (ws ++ (if o.1 = SSTORE then
        match vm.Stack with
        | value :: key :: _ => [(key, value)]
        | _ => []
       else [])) := by
  obtain ⟨h1, h2, h3⟩ := h
  have hf := ExecuteOpcode_frame vm o.1 o.2
  rw [hf.storage]
  by_cases hop : o.1 = SSTORE
  · rw [if_pos hop, if_pos hop]
    rcases hst : vm.Stack with _ | ⟨value, _ | ⟨key, rest⟩⟩
    · simpa using ⟨h1, h2, h3⟩
    · simpa using ⟨h1, h2, h3⟩
    · have hv : value < W := hs value (by rw [hst]; simp)
      have hkey : key < W := hs key (by rw [hst]; simp)
      simp only
      refine ⟨?_, ?_, ?_⟩
      · intro w hw
        rcases List.mem_append.mp hw with hw | hw
        · exact h1 w hw
        · rw [List.mem_singleton] at hw
          rw [hw]; exact ⟨hkey, hv⟩
      · intro s bs hsb
        simp only at hsb
        by_cases hsk : s = fmtHex key
        · rw [if_pos hsk] at hsb
          injection hsb with hsb
          refine ⟨key, ⟨value, List.mem_append.mpr (Or.inr (List.mem_singleton.mpr rfl))⟩,
            hsk, ?_⟩
          rw [lastWrite_append, if_pos rfl]; exact hsb.symm
        · rw [if_neg hsk] at hsb
          obtain ⟨k, ⟨v, hm⟩, e1, e2⟩ := h2 s bs hsb
          have hne : key ≠ k := by
            intro he; apply hsk; rw [e1, he]
          refine ⟨k, ⟨v, List.mem_append.mpr (Or.inl hm)⟩, e1, ?_⟩
          rw [lastWrite_append, if_neg hne]; exact e2
      · intro w hw
        show (if fmtHex w.1 = fmtHex key then some (encodeValue value)
          else vm.Storage (fmtHex w.1)) = _
        by_cases hwk : key = w.1
        · rw [lastWrite_append, if_pos hwk, ← hwk, if_pos rfl]
        · have hw0 : w ∈ ws := by
            rcases List.mem_append.mp hw with hw | hw
            · exact hw
            · rw [List.mem_singleton] at hw
              exact absurd (by rw [hw]) hwk
          have hne : fmtHex w.1 ≠ fmtHex key := fun he =>
            hwk (fmtHex_inj w.1 key (h1 w hw0).1 hkey he).symm
          rw [lastWrite_append, if_neg hwk, if_neg hne]
          exact h3 w hw0
  · rw [if_neg hop, if_neg hop]
    simpa using ⟨h1, h2, h3⟩

theorem StorageOfWrites_runOps (ops : List (OpCode × List Byte)) :
    ∀ vm ws, (∀ x ∈ vm.Stack, x < W) → StorageOfWrites vm.Storage ws →
      StorageOfWrites (runOps vm ops).Storage (ws ++ writesOf vm ops) := by
  induction ops with
  | nil => intro vm ws _ h; simpa [runOps, writesOf] using h
  | cons o ops ih =>
    intro vm ws hs h
    have := ih _ _ ((ExecuteOpcode_frame vm o.1 o.2).stackVal hs)
      (StorageOfWrites_step vm ws o hs h)
    rw [List.append_assoc] at this
    exact this

theorem startVM_byteAt (code : List Byte) (h : code.length ≤ maxCode) (i : Nat)
    (hi : i < code.length) : (startVM code).Memory.byteAt i = code.getD i 0 := by
  have hs : NewVM.Memory.size = maxCode := rfl
  unfold startVM copyInto
  rw [if_pos (Nat.zero_le _)]
  simp only [Option.getD_some, hs]
  rw [if_pos ⟨Nat.zero_le _, by omega⟩]
  rfl

theorem wrapInt_id (x : Int) (h1 : -2 ^ 63 ≤ x) (h2 : x < 2 ^ 63) : wrapInt x = x := by
  unfold wrapInt; omega

theorem NewMemory_WF (maxLen : Nat) (s : Int) (h1 : 0 ≤ s) (h2 : s < 2 ^ 63)
    (h3 : s ≤ maxLen) :
    ∃ m, NewMemory maxLen s = .ok m ∧ m.WF ∧ m.size = s ∧
      m.data = List.replicate s.toNat 0 := by
  unfold NewMemory
  rw [if_neg (by omega)]
  refine ⟨_, rfl, ⟨h1, ?_, ?_⟩, rfl, rfl⟩
  · show s ≤ ((List.replicate s.toNat (0 : Byte)).length : Int)
    rw [List.length_replicate]; omega
  · show (List.replicate s.toNat (0 : Byte)).length < 2 ^ 63
    rw [List.length_replicate]; omega

theorem NewMemory_refused (maxLen : Nat) (s : Int) (h : s < 0 ∨ (maxLen : Int) < s) :
    NewMemory maxLen s = .panic .runtime := by
  unfold NewMemory
  rw [if_pos (by omega)]

theorem Memory_Get_ok (m : Memory) (hwf : m.WF) (a : Int) (h1 : 0 ≤ a) (h2 : a < m.size) :
    ∃ b, m.data[a.toNat]? = some b ∧ m.Get a = .ok b := by
  obtain ⟨w1, w2, w3⟩ := hwf
  have hlt : a.toNat < m.data.length := by omega
  refine ⟨m.data[a.toNat], List.getElem?_eq_getElem hlt, ?_⟩
  unfold Memory.Get
  rw [if_neg (by omega), List.getElem?_eq_getElem hlt]

theorem Memory_Get_out (m : Memory) (a : Int) (h : a < 0 ∨ m.size ≤ a) :
    m.Get a = .panic .accessOutOfBounds := by
  unfold Memory.Get
  rw [if_pos (by omega)]

theorem Memory_Set_ok (m : Memory) (hwf : m.WF) (a : Int) (v : Byte) (h1 : 0 ≤ a)
    (h2 : a < m.size) :
    m.Set a v = .ok { m with data := m.data.set a.toNat v } := by
  obtain ⟨w1, w2, w3⟩ := hwf
  have hlt : a.toNat < m.data.length := by omega
  unfold Memory.Set
  rw [if_neg (by omega), if_pos hlt]

theorem Memory_Set_out (m : Memory) (a : Int) (v : Byte) (h : a < 0 ∨ m.size ≤ a) :
    m.Set a v = .panic .accessOutOfBounds := by
  unfold Memory.Set
  rw [if_pos (by omega)]

theorem Memory_Allocate_ok (m : Memory) (hwf : m.WF) (n : Int) (h1 : 0 < n) (h2 : n ≤ m.size) :
    m.Allocate n = .ok (m.size - n, { m with size := m.size - n }) := by
  obtain ⟨w1, w2, w3⟩ := hwf
  have hw : wrapInt (m.size - n) = m.size - n := wrapInt_id _ (by omega) (by omega)
  unfold Memory.Allocate
  rw [hw, if_neg (by omega)]

/-! ## Properties of the compiler, the invariants and the memory -/

/-- Claim C21: for every source string, `Compiler.Compile` returns no error and
a bytecode that is not empty (57 bytes), the bytecode of `Compile(source)`,
whose `Error` is always nil; the bytecode is the same fixed byte sequence
whatever the source text. -/
theorem compile_is_constant (source : String) :
    Compiler.Compile (.str source) = ((Compile source).Contract.Bytecode, none) ∧
      (Compile source).Error = none ∧
      (Compile source).Contract.Bytecode ≠ [] ∧
      (Compile source).Contract.Bytecode.length = 57 ∧
      ∀ other : String, Compiler.Compile (.str other) = Compiler.Compile (.str source) ∧
        (Compile other).Contract.Bytecode = (Compile source).Contract.Bytecode :=
  ⟨rfl, rfl, List.cons_ne_nil _ _, rfl, fun _ => ⟨rfl, rfl⟩⟩

/-- Claim C22: the stack-bound invariant. Starting from `NewVM`, after any
sequence of `ExecuteOpcode` calls, failing or not, the stack holds at most
1024 values; a push on a stack of 1024 values returns the stack overflow error
and leaves the machine unchanged, a push on a shorter stack puts the value on
top; and the bytecode of 1025 consecutive `PUSH1 0x01` makes `Execute` fail
with stack overflow at the 1025th instruction, with `GasUsed = 1025`. -/
theorem stack_bound_invariant (ops : List (OpCode × List Byte)) :
    (runOps NewVM ops).Stack.length ≤ 1024 ∧
      (∀ vm v, vm.Stack.length = 1024 → Push vm v = (vm, some .stackOverflow)) ∧
      (∀ vm operand, vm.Stack.length = 1024 →
        ExecuteOpcode vm PUSH1 operand = (vm, some .stackOverflow) ∧
        ExecuteOpcode vm PUSH32 operand = (vm, some .stackOverflow)) ∧
      (∀ vm v, vm.Stack.length < 1024 →
        Push vm v = ({ vm with Stack := v :: vm.Stack }, none)) ∧
      (pushProgram 1025).length = 2050 ∧
      ExecuteTrace (mkContract (pushProgram 1025)) [] =
        .done ({ Success := false, ReturnData := [], GasUsed := 1025,
                 Error := some (.atPC 2049 .stackOverflow) }, 1025) := by
  have hover : ∀ vm v, vm.Stack.length = 1024 → Push vm v = (vm, some .stackOverflow) := by
    intro vm v h
    unfold Push
    rw [if_pos (by omega)]
  obtain ⟨h1, _, _⟩ := by simpa using StoreInv_runOps ops NewVM [] StoreInv_NewVM
  refine ⟨h1, hover, ?_, fun vm v h => Push_ok vm v h, pushProgram_length 1025,
    pushProgram_overflows⟩
  intro vm operand h
  exact ⟨hover vm _ h, hover vm _ h⟩

/-- Claim C23: the canonical form of storage. Starting from `NewVM`, after any
sequence of `ExecuteOpcode` calls every storage entry was written by an
`SSTORE` of the sequence (stack `[.., key, value]`, value on top): its value is
exactly 8 bytes, the big-endian encoding of the 64-bit value most recently
stored under its key, and its key is the rendering of that 64-bit integer key;
conversely every key an `SSTORE` wrote has such an entry. The rendering
consists of lowercase hexadecimal digits, at least one and at most 16, with no
leading zero (0 is rendered "0") and reads back as the integer; distinct
64-bit keys have distinct key strings. -/
theorem storage_canonical_form (ops : List (OpCode × List Byte)) :
    (∀ s bs, (runOps NewVM ops).Storage s = some bs →
        ∃ key value, key < 2 ^ 64 ∧ value < 2 ^ 64 ∧ s = fmtHex key ∧ bs = encodeValue value ∧
          bs.length = 8 ∧ beValue bs = value ∧
          (key, value) ∈ writesOf NewVM ops ∧ value = lastWrite (writesOf NewVM ops) key) ∧
      (∀ key value, (key, value) ∈ writesOf NewVM ops →
        (runOps NewVM ops).Storage (fmtHex key) =
          some (encodeValue (lastWrite (writesOf NewVM ops) key))) ∧
      (∀ key, key < 2 ^ 64 →
        (∀ c ∈ (fmtHex key).data, isLowerHex c) ∧ (fmtHex key).data ≠ [] ∧
        (key ≠ 0 → (fmtHex key).data.head? ≠ some '0') ∧ (fmtHex key).data.length ≤ 16 ∧
        parseHex (fmtHex key).data = key) ∧
      fmtHex 0 = "0" ∧
      ∀ a b, a < 2 ^ 64 → b < 2 ^ 64 → a ≠ b → fmtHex a ≠ fmtHex b := by
  have hinv : StorageOfWrites (runOps NewVM ops).Storage (writesOf NewVM ops) := by
    have h0 : StorageOfWrites NewVM.Storage [] := by
      unfold StorageOfWrites
      exact ⟨fun w hw => (by cases hw), fun s bs h => (by cases h), fun w hw => (by cases hw)⟩
    have h := StorageOfWrites_runOps ops NewVM [] (by intro x hx; cases hx) h0
    rw [List.nil_append] at h
    exact h
  obtain ⟨i1, i2, i3⟩ := hinv
  refine ⟨?_, ?_, fun key h => fmtHex_canonical key h, rfl, ?_⟩
  · intro s bs h
    obtain ⟨key, ⟨v, hm⟩, e1, e2⟩ := i2 s bs h
    have hm2 := lastWrite_mem _ key v hm
    obtain ⟨b1, b2⟩ := i1 _ hm2
    refine ⟨key, lastWrite (writesOf NewVM ops) key, b1, b2, e1, e2, ?_, ?_, hm2, rfl⟩
    · rw [e2]; exact encodeValue_length _
    · rw [e2]; exact beValue_encodeValue _ b2
  · intro key value hm
    exact i3 _ hm
  · intro a b ha hb hne h
    exact hne (fmtHex_inj a b ha hb h)

/-- Witness of C23: storing 5 under key 0xab is the one write of the sequence
and makes the entry with key string "ab" and value `00 00 00 00 00 00 00 05`. -/
theorem storage_canonical_form_witness :
    (runOps NewVM [(PUSH1, [0xab]), (PUSH1, [0x05]), (SSTORE, [])]).Storage "ab" =
        some [0, 0, 0, 0, 0, 0, 0, 5] ∧
      writesOf NewVM [(PUSH1, [0xab]), (PUSH1, [0x05]), (SSTORE, [])] = [(0xab, 5)] ∧
      ∃ key value, key < 2 ^ 64 ∧ value < 2 ^ 64 ∧ "ab" = fmtHex key ∧
        [0, 0, 0, 0, 0, 0, 0, 5] = encodeValue value ∧
        ([0, 0, 0, 0, 0, 0, 0, 5] : List Byte).length = 8 ∧
        beValue [0, 0, 0, 0, 0, 0, 0, 5] = value ∧
        (key, value) ∈ writesOf NewVM [(PUSH1, [0xab]), (PUSH1, [0x05]), (SSTORE, [])] ∧
        value = lastWrite (writesOf NewVM [(PUSH1, [0xab]), (PUSH1, [0x05]), (SSTORE, [])]) key :=
  ⟨by decide, by decide,
    (storage_canonical_form [(PUSH1, [0xab]), (PUSH1, [0x05]), (SSTORE, [])]).1
    "ab" [0, 0, 0, 0, 0, 0, 0, 5] (by decide)⟩

/-- Claim C24: a failed pop does not restore the values popped before it. On a
stack holding exactly one value, `ADD`, `SUB`, `MUL`, `SSTORE`, `JUMPI`, and
`DIV` when that value is not 0, return stack underflow and leave the stack
empty, with memory, storage, program counter and gas unchanged; on an empty
stack every popping opcode returns stack underflow and changes nothing. -/
theorem underflow_is_not_rolled_back (vm : VM) (x : Nat) (operand : List Byte) :
    (∀ op ∈ [ADD, SUB, MUL, SSTORE, JUMPI],
        ExecuteOpcode { vm with Stack := [x] } op operand =
          ({ vm with Stack := [] }, some .stackUnderflow)) ∧
      (x ≠ 0 → ExecuteOpcode { vm with Stack := [x] } DIV operand =
        ({ vm with Stack := [] }, some .stackUnderflow)) ∧
      (∀ op ∈ [POP, ADD, SUB, MUL, DIV, SSTORE, SLOAD, JUMP, JUMPI],
        ExecuteOpcode { vm with Stack := [] } op operand =
          ({ vm with Stack := [] }, some .stackUnderflow)) := by
  refine ⟨?_, ?_, ?_⟩
  · intro op hop
    simp only [List.mem_cons, List.mem_singleton, List.mem_nil_iff, or_false] at hop
    rcases hop with rfl | rfl | rfl | rfl | rfl <;> rfl
  · intro hx
    simp [ExecuteOpcode, DIV, PUSH1, PUSH32, POP, ADD, SUB, MUL, Pop, hx]
  · intro op hop
    simp only [List.mem_cons, List.mem_singleton, List.mem_nil_iff, or_false] at hop
    rcases hop with rfl | rfl | rfl | rfl | rfl | rfl | rfl | rfl | rfl <;> rfl

/-- Witness of C24: `ADD` and `DIV` on the stack `[7]`, `SLOAD` on the empty stack. -/
theorem underflow_is_not_rolled_back_witness :
    ExecuteOpcode { NewVM with Stack := [7] } ADD [] =
        ({ NewVM with Stack := [] }, some .stackUnderflow) ∧
      ExecuteOpcode { NewVM with Stack := [7] } DIV [] =
        ({ NewVM with Stack := [] }, some .stackUnderflow) ∧
      ExecuteOpcode NewVM SLOAD [] = (NewVM, some .stackUnderflow) :=
  ⟨(underflow_is_not_rolled_back NewVM 7 []).1 ADD (by decide),
   (underflow_is_not_rolled_back NewVM 7 []).2.1 (by decide),
   (underflow_is_not_rolled_back NewVM 7 []).2.2 SLOAD (by decide)⟩

/-- Claim C25: `Execute` first stores the bytecode at offset 0 of the 4194304
bytes of memory. A bytecode longer than that makes `Store` return memory out
of bounds and `Execute` return `Success = false` with the failed to load
bytecode error wrapping it, `GasUsed = 0` and no opcode fetched; a bytecode of
at most 4194304 bytes is stored without error (memory keeps its size and holds
the bytecode) and the loop runs from program counter 0. -/
theorem execute_loads_bytecode {α : Type} (contract : Contract α) (input : List Byte)
    (hint : contract.Bytecode.length < 2 ^ 63) :
    (4194304 < contract.Bytecode.length →
        Store NewVM 0 contract.Bytecode = .done (NewVM, some .memoryOutOfBounds) ∧
        ExecuteTrace contract input =
          .done ({ Success := false, ReturnData := [], GasUsed := 0,
                   Error := some (.loadFailed .memoryOutOfBounds) }, 0) ∧
        Execute contract input =
          .done { Success := false, ReturnData := [], GasUsed := 0,
                  Error := some (.loadFailed .memoryOutOfBounds) }) ∧
      (contract.Bytecode.length ≤ 4194304 →
        Store NewVM 0 contract.Bytecode = .done (startVM contract.Bytecode, none) ∧
        (startVM contract.Bytecode).Memory.size = 4194304 ∧
        (∀ i, i < contract.Bytecode.length →
          (startVM contract.Bytecode).Memory.byteAt i = contract.Bytecode.getD i 0) ∧
        (startVM contract.Bytecode).PC = 0 ∧
        ∃ e, execLoop 100001 (startVM contract.Bytecode) contract.Bytecode 0 = .done e ∧
          ExecuteTrace contract input = .done (resultOf 100000 e, e.fetched) ∧
          Execute contract input = .done (resultOf 100000 e)) := by
  have hm : maxCode = 4194304 := by unfold maxCode; norm_num
  constructor
  · intro h
    have h1 : maxCode < contract.Bytecode.length := by rw [hm]; exact h
    have h2 : contract.Bytecode.length < W := by unfold W; omega
    have ht := ExecuteTrace_too_long contract input h1 h2
    exact ⟨Store_too_long _ h1 h2, ht, Execute_eq _ _ _ _ ht⟩
  · intro h
    have h1 : contract.Bytecode.length ≤ maxCode := by rw [hm]; exact h
    obtain ⟨e, he, _, ht⟩ := ExecuteTrace_eq contract input h1
    exact ⟨Store_NewVM _ h1, rfl, fun i hi => startVM_byteAt _ h1 i hi, rfl, e, he, ht,
      Execute_eq _ _ _ _ ht⟩

/-- Witness of C25: a bytecode of 4194305 bytes is refused; a bytecode of 3
bytes loads. -/
theorem execute_loads_bytecode_witness :
    (mkContract (List.replicate 4194305 0)).Bytecode.length < 2 ^ 63 ∧
      4194304 < (mkContract (List.replicate 4194305 0)).Bytecode.length ∧
      Execute (mkContract (List.replicate 4194305 0)) [] =
        .done { Success := false, ReturnData := [], GasUsed := 0,
                Error := some (.loadFailed .memoryOutOfBounds) } ∧
      Store NewVM 0 [0x60, 0x01, 0x00] = .done (startVM [0x60, 0x01, 0x00], none) := by
  have hl : (mkContract (List.replicate 4194305 0)).Bytecode.length = 4194305 :=
    List.length_replicate _ _
  have h1 : (mkContract (List.replicate 4194305 0)).Bytecode.length < 2 ^ 63 := by
    rw [hl]; norm_num
  have h2 : 4194304 < (mkContract (List.replicate 4194305 0)).Bytecode.length := by
    rw [hl]; norm_num
  exact ⟨h1, h2,
    ((execute_loads_bytecode (mkContract (List.replicate 4194305 0)) [] h1).1 h2).2.2,
    ((execute_loads_bytecode (mkContract [0x60, 0x01, 0x00]) [] (by decide)).2 (by decide)).1⟩

/-- Claim C26: on a memory made by `NewMemory` (and by allocations and writes
as below) with accessible size `c`, `Allocate(n)` with `0 < n ≤ c` returns the
address `c - n` and shrinks the accessible size to `c - n`, so `Get` and `Set`
then panic with memory access out of bounds on every address of the block
`[c - n, c)`; `Get` and `Set` succeed exactly for the addresses `a` with
`0 ≤ a < c` and panic with memory access out of bounds otherwise; and `Get(a)`
after `Set(a, v)` returns `v`. `NewMemory(s)` creates a memory exactly when
`s` is not negative and within the largest length the runtime grants, and
fails in `make` otherwise; every memory it creates is such a memory, of
accessible size `s` and all zero. -/
theorem memory_allocate_get_set (m : Memory) (hwf : m.WF) :
    (∀ n, 0 < n → n ≤ m.size →
        m.Allocate n = .ok (m.size - n, { m with size := m.size - n }) ∧
        Memory.WF { m with size := m.size - n } ∧
        ∀ a, m.size - n ≤ a → a < m.size →
          Memory.Get { m with size := m.size - n } a = .panic .accessOutOfBounds ∧
          ∀ v, Memory.Set { m with size := m.size - n } a v = .panic .accessOutOfBounds) ∧
      (∀ a, ((∃ b, m.Get a = .ok b) ↔ (0 ≤ a ∧ a < m.size)) ∧
        (¬ (0 ≤ a ∧ a < m.size) → m.Get a = .panic .accessOutOfBounds)) ∧
      (∀ a v, ((∃ m1, m.Set a v = .ok m1) ↔ (0 ≤ a ∧ a < m.size)) ∧
        (¬ (0 ≤ a ∧ a < m.size) → m.Set a v = .panic .accessOutOfBounds)) ∧
      (∀ a v, 0 ≤ a → a < m.size →
        ∃ m1, m.Set a v = .ok m1 ∧ m1.Get a = .ok v ∧ m1.size = m.size ∧ m1.WF) ∧
      (∀ (maxLen : Nat) (s : Int), s < 2 ^ 63 →
        ((0 ≤ s ∧ s ≤ maxLen) →
          ∃ m0, NewMemory maxLen s = .ok m0 ∧ m0.WF ∧ m0.size = s ∧
            m0.data = List.replicate s.toNat 0) ∧
        (¬ (0 ≤ s ∧ s ≤ maxLen) → NewMemory maxLen s = .panic .runtime) ∧
        (∀ m0, NewMemory maxLen s = .ok m0 →
          0 ≤ s ∧ s ≤ maxLen ∧ m0.WF ∧ m0.size = s ∧
            m0.data = List.replicate s.toNat 0)) := by
  have hwf0 := hwf
  obtain ⟨w1, w2, w3⟩ := hwf
  refine ⟨?_, ?_, ?_, ?_, ?_⟩
  rotate_left 4
  · intro maxLen s hs
    refine ⟨fun h => NewMemory_WF maxLen s h.1 hs h.2,
      fun h => NewMemory_refused maxLen s (by omega), ?_⟩
    intro m0 hm0
    by_cases hr : 0 ≤ s ∧ s ≤ maxLen
    · obtain ⟨m1, e1, e2, e3, e4⟩ := NewMemory_WF maxLen s hr.1 hs hr.2
      rw [e1] at hm0
      injection hm0 with hm0
      rw [← hm0]
      exact ⟨hr.1, hr.2, e2, e3, e4⟩
    · rw [NewMemory_refused maxLen s (by omega)] at hm0
      cases hm0
  · intro n h1 h2
    refine ⟨Memory_Allocate_ok m hwf0 n h1 h2, ⟨?_, ?_, w3⟩, ?_⟩
    · show 0 ≤ m.size - n
      omega
    · show m.size - n ≤ (m.data.length : Int)
      omega
    · intro a h3 h4
      exact ⟨Memory_Get_out _ a (Or.inr h3), fun v => Memory_Set_out _ a v (Or.inr h3)⟩
  · intro a
    constructor
    · constructor
      · rintro ⟨b, hb⟩
        by_contra hn
        rw [Memory_Get_out m a (by omega)] at hb
        cases hb
      · rintro ⟨h1, h2⟩
        obtain ⟨b, _, hb⟩ := Memory_Get_ok m hwf0 a h1 h2
        exact ⟨b, hb⟩
    · intro hn
      exact Memory_Get_out m a (by omega)
  · intro a v
    constructor
    · constructor
      · rintro ⟨m1, hm1⟩
        by_contra hn
        rw [Memory_Set_out m a v (by omega)] at hm1
        cases hm1
      · rintro ⟨h1, h2⟩
        exact ⟨_, Memory_Set_ok m hwf0 a v h1 h2⟩
    · intro hn
      exact Memory_Set_out m a v (by omega)
  · intro a v h1 h2
    have hlt : a.toNat < m.data.length := by omega
    have hwf1 : Memory.WF { m with data := m.data.set a.toNat v } := by
      refine ⟨w1, ?_, ?_⟩
      · show m.size ≤ ((m.data.set a.toNat v).length : Int)
        rw [List.length_set]; exact w2
      · show (m.data.set a.toNat v).length < 2 ^ 63
        rw [List.length_set]; exact w3
    refine ⟨_, Memory_Set_ok m hwf0 a v h1 h2, ?_, rfl, hwf1⟩
    unfold Memory.Get
    rw [if_neg (by show ¬ (a < 0 ∨ a ≥ m.size); omega)]
    have hg : (m.data.set a.toNat v)[a.toNat]? = some v := by
      rw [List.getElem?_set_self]
      simp [hlt]
    show (match (m.data.set a.toNat v)[a.toNat]? with
      | some b => Outcome.ok b
      | none => Outcome.panic .runtime) = _
    rw [hg]

/-- Witness of C26: `NewMemory(8)` on a runtime granting 4096 bytes,
`Allocate(3)` returning 5, `Get(6)` rejected afterwards, and `Set(2, 7)` read
back. -/
theorem memory_allocate_get_set_witness :
    NewMemory 4096 8 = .ok { data := [0, 0, 0, 0, 0, 0, 0, 0], size := 8 } ∧
      Memory.Allocate { data := [0, 0, 0, 0, 0, 0, 0, 0], size := 8 } 3 =
        .ok (5, { data := [0, 0, 0, 0, 0, 0, 0, 0], size := 5 }) ∧
      Memory.Get { data := [0, 0, 0, 0, 0, 0, 0, 0], size := 5 } 6 =
        .panic .accessOutOfBounds ∧
      ∃ m1, Memory.Set { data := [0, 0, 0, 0, 0, 0, 0, 0], size := 8 } 2 7 = .ok m1 ∧
        m1.Get 2 = .ok 7 ∧ m1.size = 8 ∧ m1.WF := by
  have hwf : Memory.WF { data := [0, 0, 0, 0, 0, 0, 0, 0], size := 8 } :=
    ⟨by decide, by decide, by decide⟩
  have h := memory_allocate_get_set { data := [0, 0, 0, 0, 0, 0, 0, 0], size := 8 } hwf
  obtain ⟨ha, _, hg⟩ := h.1 3 (by decide) (by decide)
  exact ⟨by decide, ha, (hg 6 (by decide) (by decide)).1,
    h.2.2.2.1 2 7 (by decide) (by decide)⟩

end SolVM
